import Mathlib

/-!
Shallow embedding of the note-similarity and linking engine of the
`highlight-workflow` repository (`src/services/noteLinking.ts` and the
storage operations of `src/services/notes.ts`), together with proofs of
the specification claims about it.

Modelling conventions:
* A note's `date` field is a `yyyy-MM-dd` string in the source and is only
  ever consumed through `new Date(note.date).getTime()` (similarity scoring
  and the `listNotes` sort).  We therefore represent it directly by that
  epoch-millisecond value (`Int`).
* JavaScript `number` arithmetic on scores is represented by exact rational
  arithmetic over explicit numerator/denominator pairs (`Q` below, kept
  executable so that the kernel can evaluate concrete scores); `Math.round`
  is "round half toward +∞", which agrees with JavaScript on every value
  arising here.
* A JavaScript `Set` is represented by a duplicate-free list that keeps the
  first occurrence of each element (`dedupFirst`), matching `Set` insertion
  order.
* The flat-file store is represented by the configured project list, each
  project carrying its notes in directory-listing order.  `updateNote`
  throws when the project is missing; a thrown exception is modelled by
  `none` in an `Option` result.
* `Array.prototype.sort` (guaranteed stable) is modelled by a stable
  insertion sort on the same comparison key.
* String comparison used by the graph's edge key (`[a,b].sort()`) compares
  JavaScript strings by code unit; we compare by code point (`Char.val`),
  which agrees on all strings without surrogate pairs.
-/

namespace Highlight

/-- Link type of a `NoteLink` (`'manual' | 'related' | 'backlink'`). -/
inductive LinkType where
  | manual
  | related
  | backlink
deriving DecidableEq, Repr

/-- `NoteLink` from `src/types.ts`. -/
structure NoteLink where
  noteId : String
  noteTitle : String
  project : String
  linkType : LinkType
  relevanceScore : Option Int := none
deriving DecidableEq, Repr

/-- Priority of an action point. -/
inductive Priority where
  | low
  | medium
  | high
deriving DecidableEq, Repr

/-- Status of an action point. -/
inductive APStatus where
  | pending
  | in_progress
  | completed
deriving DecidableEq, Repr

/-- `ActionPoint` from `src/types.ts`. -/
structure ActionPoint where
  id : String
  description : String
  assignee : Option String := none
  dueDate : Option String := none
  priority : Priority
  status : APStatus
  noteId : String
deriving DecidableEq, Repr

/-- `Note` from `src/types.ts`; `date` holds `new Date(note.date).getTime()`
in milliseconds (see the module docstring). -/
structure Note where
  id : String
  title : String
  date : Int
  project : String
  content : String
  actionPoints : List ActionPoint
  tags : List String
  linkedNotes : List NoteLink
  createdAt : String
  updatedAt : String
deriving DecidableEq, Repr

/-- A configured project together with the notes of its directory, in
directory-listing order. -/
structure Project where
  name : String
  notes : List Note
deriving DecidableEq, Repr

/-- The storage state: the configured project list. -/
abbrev Store := List Project

/-- The partial-update record accepted by `updateNote`
(`Partial<Pick<Note, 'title' | 'content' | 'tags' | 'actionPoints' | 'linkedNotes'>>`). -/
structure NoteUpdates where
  title : Option String := none
  content : Option String := none
  tags : Option (List String) := none
  actionPoints : Option (List ActionPoint) := none
  linkedNotes : Option (List NoteLink) := none
deriving DecidableEq, Repr

/-- Result record of `linkNotes` / `unlinkNotes`. -/
structure LinkResult where
  success : Bool
  message : String
deriving DecidableEq, Repr

/-- Keep the first occurrence of every element, as `new Set(list)` does. -/
def dedupFirst [BEq α] : List α → List α
  | [] => []
  | a :: as => a :: (dedupFirst as).filter (fun b => !(a == b))

/-- Stable descending insertion: `x` is placed before the first element whose
key is not greater than `key x`.  Since `x` comes from earlier in the input
than every element of the accumulator, this realizes a stable sort. -/
def insertDesc (key : α → Int) (x : α) : List α → List α
  | [] => [x]
  | y :: ys => if key x < key y then y :: insertDesc key x ys else x :: y :: ys

/-- Stable sort in descending key order, modelling the stable
`Array.prototype.sort` with comparator `(a, b) => key b - key a`. -/
def sortByDesc (key : α → Int) : List α → List α
  | [] => []
  | x :: xs => insertDesc key x (sortByDesc key xs)

/-- The stop-word list of `extractKeywords`, verbatim from the source. -/
def stopWords : List String :=
  ["the", "a", "an", "and", "or", "but", "in", "on", "at", "to", "for",
   "of", "with", "by", "from", "as", "is", "was", "are", "were", "been",
   "be", "have", "has", "had", "do", "does", "did", "will", "would", "could",
   "should", "may", "might", "must", "shall", "can", "need", "dare", "ought",
   "used", "this", "that", "these", "those", "i", "you", "he", "she", "it",
   "we", "they", "what", "which", "who", "whom", "whose", "where", "when",
   "why", "how", "all", "each", "every", "both", "few", "more", "most",
   "other", "some", "such", "no", "nor", "not", "only", "own", "same", "so",
   "than", "too", "very", "just", "also", "now", "here", "there", "then"]

/-- Characters surviving the `replace(/[^a-z0-9\s]/g, ' ')` normalization. -/
def isKeywordChar (c : Char) : Bool :=
  (('a' ≤ c) && (c ≤ 'z')) || (('0' ≤ c) && (c ≤ '9'))

/-- Split a lower-cased character stream into its maximal `[a-z0-9]` runs.
This is `replace(/[^a-z0-9\s]/g, ' ')` followed by `split(/\s+/)`, minus the
possible leading empty token, which the length filter below discards anyway. -/
def splitRuns : List Char → List Char → List String
  | [], cur => if cur.isEmpty then [] else [String.mk cur.reverse]
  | c :: cs, cur =>
    if isKeywordChar c then splitRuns cs (c :: cur)
    else if cur.isEmpty then splitRuns cs cur
    else String.mk cur.reverse :: splitRuns cs []

/-- `extractKeywords` of `noteLinking.ts`: lower-case, keep alphanumeric runs,
drop short tokens and stop words, and collapse duplicates into a set.
`String.toLower` maps `Char.toLower` over the characters; we write the map
directly so the kernel can evaluate it.  (`Char.toLower` lower-cases only
ASCII letters, a sound restriction for the inputs considered here.) -/
def extractKeywords (text : String) : List String :=
  dedupFirst ((splitRuns (text.data.map Char.toLower) []).filter
    (fun word => 2 < word.length && !(stopWords.contains word)))

/-- An exact rational value, written as an explicit numerator/denominator
pair so that kernel reduction can evaluate scores.  Every `Q` built below
has a positive denominator. -/
structure Q where
  num : Int
  den : Int
deriving DecidableEq, Repr

/-- Embed an integer. -/
def Q.ofInt (n : Int) : Q := ⟨n, 1⟩

/-- Exact rational addition. -/
def Q.add (a b : Q) : Q := ⟨a.num * b.den + b.num * a.den, a.den * b.den⟩

/-- Exact rational subtraction. -/
def Q.sub (a b : Q) : Q := ⟨a.num * b.den - b.num * a.den, a.den * b.den⟩

/-- Exact rational multiplication. -/
def Q.mul (a b : Q) : Q := ⟨a.num * b.num, a.den * b.den⟩

/-- Exact rational division (both arguments with positive denominator and a
positive divisor wherever the code divides). -/
def Q.div (a b : Q) : Q := ⟨a.num * b.den, a.den * b.num⟩

/-- `a ≤ b` for positive denominators. -/
def Q.le (a b : Q) : Bool := decide (a.num * b.den ≤ b.num * a.den)

/-- JavaScript `Math.round` (round half toward positive infinity) of a
rational with positive denominator: `⌊ q + 1/2 ⌋ = ⌊ (2 num + den) / (2 den) ⌋`. -/
def jsRound (q : Q) : Int := Int.fdiv (2 * q.num + q.den) (2 * q.den)

/-- Tag-overlap term of `calculateSimilarity`:
`note1.tags.filter(t => note2.tags.includes(t)).length * 20`. -/
def tagScore (note1 note2 : Note) : Q :=
  Q.ofInt (((note1.tags.filter (fun t => note2.tags.contains t)).length : Int) * 20)

/-- The keyword set of a note as scored: `extractKeywords(content + ' ' + title)`. -/
def noteKeywords (note : Note) : List String :=
  extractKeywords (note.content ++ " " ++ note.title)

/-- Keyword-overlap count of `calculateSimilarity`: members of the first
note's keyword set also present in the second note's keyword set. -/
def keywordOverlap (note1 note2 : Note) : Nat :=
  ((noteKeywords note1).filter (fun k => (noteKeywords note2).contains k)).length

/-- `totalKeywords = Math.max(keywords1.size, keywords2.size)`. -/
def totalKeywords (note1 note2 : Note) : Nat :=
  max (noteKeywords note1).length (noteKeywords note2).length

/-- Keyword-overlap term of `calculateSimilarity`:
`(overlap / max(|k1|, |k2|)) * 50` when the maximum is positive. -/
def keywordScore (note1 note2 : Note) : Q :=
  if 0 < totalKeywords note1 note2 then
    Q.mul (Q.div (Q.ofInt (keywordOverlap note1 note2))
      (Q.ofInt (totalKeywords note1 note2))) (Q.ofInt 50)
  else Q.ofInt 0

/-- Same-project bonus of `calculateSimilarity`. -/
def projectScore (note1 note2 : Note) : Q :=
  Q.ofInt (if note1.project == note2.project then 10 else 0)

/-- `Math.abs(date1 - date2) / (1000 * 60 * 60 * 24)` in days
(`natAbs` is the absolute difference of the epoch milliseconds). -/
def daysDiff (note1 note2 : Note) : Q :=
  Q.div (Q.ofInt ((note1.date - note2.date).natAbs : Int))
    (Q.ofInt (1000 * 60 * 60 * 24))

/-- Date-proximity term of `calculateSimilarity`. -/
def dateScore (note1 note2 : Note) : Q :=
  if Q.le (daysDiff note1 note2) (Q.ofInt 7) then
    Q.sub (Q.ofInt 10) (daysDiff note1 note2)
  else Q.ofInt 0

/-- The assignee set of a note:
`new Set(note.actionPoints.map(ap => ap.assignee).filter(Boolean))`
(`filter(Boolean)` drops both `undefined` and the empty string). -/
def assigneesOf (note : Note) : List String :=
  dedupFirst ((note.actionPoints.filterMap (fun ap => ap.assignee)).filter
    (fun a => !(a == "")))

/-- Assignee-overlap term of `calculateSimilarity`: +5 per shared assignee. -/
def assigneeScore (note1 note2 : Note) : Q :=
  Q.ofInt ((((assigneesOf note1).filter
    (fun a => (assigneesOf note2).contains a)).length : Int) * 5)

/-- `calculateSimilarity` of `noteLinking.ts`: 0 on equal ids, otherwise the
rounded sum of the five accumulated score terms, in accumulation order. -/
def calculateSimilarity (note1 note2 : Note) : Int :=
  if note1.id == note2.id then 0
  else jsRound (Q.add (Q.add (Q.add (Q.add (tagScore note1 note2)
    (keywordScore note1 note2)) (projectScore note1 note2))
    (dateScore note1 note2)) (assigneeScore note1 note2))

/-! ## Storage operations (`src/services/notes.ts`) -/

/-- `getProject` of `utils/config.ts`: the first configured project with the
given name. -/
def getProject (store : Store) (projectName : String) : Option Project :=
  store.find? (fun pr => pr.name == projectName)

/-- `getNote` of `notes.ts`: first note of the project whose id matches. -/
def getNote (store : Store) (projectName noteId : String) : Option Note :=
  match getProject store projectName with
  | none => none
  | some pr => pr.notes.find? (fun n => n.id == noteId)

/-- `listNotes` of `notes.ts`: the project's notes sorted by date descending
(stable sort with comparator `(a, b) => dateB - dateA`). -/
def listNotes (store : Store) (projectName : String) : List Note :=
  match getProject store projectName with
  | none => []
  | some pr => sortByDesc (fun n => n.date) pr.notes

/-- Apply an update record over a note, as the spread
`{...note, ...updates, updatedAt: now}` does. -/
def applyUpdates (n : Note) (u : NoteUpdates) (now : String) : Note :=
  { n with
    title := u.title.getD n.title
    content := u.content.getD n.content
    tags := u.tags.getD n.tags
    actionPoints := u.actionPoints.getD n.actionPoints
    linkedNotes := u.linkedNotes.getD n.linkedNotes
    updatedAt := now }

/-- The per-file loop of `updateNote`: rewrite the first note whose id
matches, returning the new file list and the updated note (if found). -/
def updateNotesList (noteId : String) (u : NoteUpdates) (now : String) :
    List Note → List Note × Option Note
  | [] => ([], none)
  | n :: ns =>
    if n.id == noteId then
      let n2 := applyUpdates n u now
      (n2 :: ns, some n2)
    else
      let r := updateNotesList noteId u now ns
      (n :: r.1, r.2)

/-- `updateNote` of `notes.ts`.  `none` models the exception thrown when the
project is not configured; otherwise the store with the first matching note
rewritten, together with the function's return value. -/
def updateNote (store : Store) (projectName noteId : String) (u : NoteUpdates)
    (now : String) : Option (Store × Option Note) :=
  match store with
  | [] => none
  | pr :: prs =>
    if pr.name == projectName then
      let r := updateNotesList noteId u now pr.notes
      some (⟨pr.name, r.1⟩ :: prs, r.2)
    else
      match updateNote prs projectName noteId u now with
      | none => none
      | some (s2, res) => some (pr :: s2, res)

/-! ## The linking engine (`src/services/noteLinking.ts`) -/

/-- The cross-project candidate pool of `findRelatedNotes`: for each
configured project entry, `listNotes(project.name)`. -/
def allNotesOf (store : Store) : List Note :=
  (store.map (fun pr => listNotes store pr.name)).flatten

/-- Scoring and filtering stage of `findRelatedNotes`: each pool note paired
with its similarity to the source, keeping scores `>= minScore`. -/
def scoredCandidates (store : Store) (sourceNote : Note) (minScore : Int) :
    List (Note × Int) :=
  ((allNotesOf store).map (fun note => (note, calculateSimilarity sourceNote note))).filter
    (fun item => decide (minScore ≤ item.2))

/-- The `related`-typed link built from a scored candidate. -/
def toRelatedLink (item : Note × Int) : NoteLink :=
  { noteId := item.1.id
    noteTitle := item.1.title
    project := item.1.project
    linkType := LinkType.related
    relevanceScore := some item.2 }

/-- `findRelatedNotes` of `noteLinking.ts`: score the pool, filter by
`minScore`, stable-sort descending by score, truncate to `limit`, and map to
`related` links. -/
def findRelatedNotes (store : Store) (projectName noteId : String)
    (limit : Nat) (minScore : Int) : List NoteLink :=
  match getNote store projectName noteId with
  | none => []
  | some sourceNote =>
    (((sortByDesc (fun item => item.2)
      (scoredCandidates store sourceNote minScore)).take limit).map toRelatedLink)

/-- `linkNotes` of `noteLinking.ts`.  `none` models a thrown exception (never
reached, as proved below); otherwise the `{success, message}` result and the
resulting store. -/
def linkNotes (store : Store) (sourceProject sourceNoteId targetProject targetNoteId : String)
    (now : String) : Option (LinkResult × Store) :=
  match getNote store sourceProject sourceNoteId, getNote store targetProject targetNoteId with
  | some sourceNote, some targetNote =>
    if sourceNote.linkedNotes.any (fun l => l.noteId == targetNoteId) then
      some ({ success := false, message := "Notes are already linked" }, store)
    else
      let srcLinks := sourceNote.linkedNotes ++
        [{ noteId := targetNoteId, noteTitle := targetNote.title,
           project := targetProject, linkType := LinkType.manual }]
      let tgtLinks := targetNote.linkedNotes ++
        [{ noteId := sourceNoteId, noteTitle := sourceNote.title,
           project := sourceProject, linkType := LinkType.backlink }]
      match updateNote store sourceProject sourceNoteId { linkedNotes := some srcLinks } now with
      | none => none
      | some (store1, _) =>
        match updateNote store1 targetProject targetNoteId { linkedNotes := some tgtLinks } now with
        | none => none
        | some (store2, _) =>
          some ({ success := true,
                  message := "Linked \"" ++ sourceNote.title ++ "\" <-> \"" ++ targetNote.title ++ "\"" },
                store2)
  | _, _ => some ({ success := false, message := "One or both notes not found" }, store)

/-- `unlinkNotes` of `noteLinking.ts`: filter-based removal on both sides.
Both notes' link lists are read before either write, as in the source. -/
def unlinkNotes (store : Store) (sourceProject sourceNoteId targetProject targetNoteId : String)
    (now : String) : Option (LinkResult × Store) :=
  match getNote store sourceProject sourceNoteId, getNote store targetProject targetNoteId with
  | some sourceNote, some targetNote =>
    let srcLinks := sourceNote.linkedNotes.filter (fun l => !(l.noteId == targetNoteId))
    match updateNote store sourceProject sourceNoteId { linkedNotes := some srcLinks } now with
    | none => none
    | some (store1, _) =>
      let tgtLinks := targetNote.linkedNotes.filter (fun l => !(l.noteId == sourceNoteId))
      match updateNote store1 targetProject targetNoteId { linkedNotes := some tgtLinks } now with
      | none => none
      | some (store2, _) => some ({ success := true, message := "Notes unlinked" }, store2)
  | _, _ => some ({ success := false, message := "One or both notes not found" }, store)

/-- `getLinkedNotes` of `noteLinking.ts`. -/
def getLinkedNotes (store : Store) (projectName noteId : String) : List NoteLink :=
  match getNote store projectName noteId with
  | none => []
  | some note => note.linkedNotes

/-- The accumulation loop of `autoLinkRelatedNotes`: thread the note's
current link list through the related candidates, appending each candidate
not already linked by target id; returns the final link list and the newly
added links in order. -/
def addNewLinks (links : List NoteLink) : List NoteLink → List NoteLink × List NoteLink
  | [] => (links, [])
  | rel :: rest =>
    if links.any (fun l => l.noteId == rel.noteId) then addNewLinks links rest
    else
      let r := addNewLinks (links ++ [rel]) rest
      (r.1, rel :: r.2)

/-- `autoLinkRelatedNotes` of `noteLinking.ts`.  `none` models a thrown
exception (never reached on the paths used below). -/
def autoLinkRelatedNotes (store : Store) (projectName noteId : String)
    (limit : Nat) (minScore : Int) (now : String) : Option (List NoteLink × Store) :=
  let related := findRelatedNotes store projectName noteId limit minScore
  if related.isEmpty then some ([], store)
  else
    match getNote store projectName noteId with
    | none => some ([], store)
    | some note =>
      let r := addNewLinks note.linkedNotes related
      if r.2.isEmpty then some (r.2, store)
      else
        match updateNote store projectName noteId { linkedNotes := some r.1 } now with
        | none => none
        | some (store1, _) => some (r.2, store1)

/-! ## Graph builder (`getNoteGraph` of `noteLinking.ts`) -/

/-- A node of the derived graph. -/
structure GraphNode where
  id : String
  title : String
  project : String
deriving DecidableEq, Repr

/-- An edge of the derived graph. -/
structure GraphEdge where
  source : String
  target : String
  type : LinkType
deriving DecidableEq, Repr

/-- Lexicographic comparison of character lists by code point, modelling the
default JavaScript string comparison used by `[a, b].sort()`. -/
def lexLe : List Char → List Char → Bool
  | [], _ => true
  | _ :: _, [] => false
  | a :: as, b :: bs =>
    if a.toNat < b.toNat then true
    else if b.toNat < a.toNat then false
    else lexLe as bs

/-- `[note.id, link.noteId].sort().join('-')`. -/
def edgeKey (a b : String) : String :=
  if lexLe a.data b.data then a ++ "-" ++ b else b ++ "-" ++ a

/-- The inner loop of `getNoteGraph` over one note's link entries,
deduplicating by undirected edge key. -/
def addLinkEdges (noteId : String) :
    List NoteLink → List GraphEdge → List String → List GraphEdge × List String
  | [], edges, seen => (edges, seen)
  | link :: rest, edges, seen =>
    let k := edgeKey noteId link.noteId
    if seen.contains k then addLinkEdges noteId rest edges seen
    else addLinkEdges noteId rest
      (edges ++ [{ source := noteId, target := link.noteId, type := link.linkType }])
      (k :: seen)

/-- The note loop of `getNoteGraph` for one project. -/
def addNoteGraph (projectName : String) :
    List Note → List GraphNode → List GraphEdge → List String →
      List GraphNode × List GraphEdge × List String
  | [], nodes, edges, seen => (nodes, edges, seen)
  | note :: rest, nodes, edges, seen =>
    let r := addLinkEdges note.id note.linkedNotes edges seen
    addNoteGraph projectName rest
      (nodes ++ [{ id := note.id, title := note.title, project := projectName }])
      r.1 r.2

/-- The project loop of `getNoteGraph`. -/
def addProjectGraph (store : Store) :
    List Project → List GraphNode → List GraphEdge → List String →
      List GraphNode × List GraphEdge × List String
  | [], nodes, edges, seen => (nodes, edges, seen)
  | pr :: prs, nodes, edges, seen =>
    let r := addNoteGraph pr.name (listNotes store pr.name) nodes edges seen
    addProjectGraph store prs r.1 r.2.1 r.2.2

/-- The projects considered by `getNoteGraph` under an optional filter. -/
def graphProjects (store : Store) (projectName : Option String) : List Project :=
  match projectName with
  | some name => store.filter (fun pr => pr.name == name)
  | none => store

/-- `getNoteGraph` of `noteLinking.ts`. -/
def getNoteGraph (store : Store) (projectName : Option String) :
    List GraphNode × List GraphEdge :=
  let r := addProjectGraph store (graphProjects store projectName) [] [] []
  (r.1, r.2.1)

/-- The note pool traversed by `getNoteGraph` (one graph node per entry). -/
def graphPool (store : Store) (projectName : Option String) : List Note :=
  ((graphProjects store projectName).map (fun pr => listNotes store pr.name)).flatten

/-! ## Basic lemmas about the helper functions -/

theorem dedupFirst_nodup [BEq α] [LawfulBEq α] (l : List α) : (dedupFirst l).Nodup := by
  induction l with
  | nil => simp [dedupFirst]
  | cons a as ih =>
    rw [dedupFirst, List.nodup_cons]
    refine ⟨fun hmem => ?_, ih.filter _⟩
    have := List.of_mem_filter hmem
    simp at this

theorem mem_dedupFirst [BEq α] [LawfulBEq α] {x : α} {l : List α} :
    x ∈ dedupFirst l ↔ x ∈ l := by
  induction l with
  | nil => simp [dedupFirst]
  | cons a as ih =>
    rw [dedupFirst]
    by_cases hx : x = a
    · subst hx; simp
    · simp only [List.mem_cons, List.mem_filter]
      constructor
      · rintro (rfl | ⟨h, _⟩)
        · exact Or.inl rfl
        · exact Or.inr (ih.1 h)
      · rintro (rfl | h)
        · exact Or.inl rfl
        · exact Or.inr ⟨ih.2 h, by simp [Ne.symm hx]⟩

theorem length_filter_contains_comm (l1 l2 : List String)
    (h1 : l1.Nodup) (h2 : l2.Nodup) :
    (l1.filter (fun t => l2.contains t)).length =
      (l2.filter (fun t => l1.contains t)).length := by
  have key : ∀ (a b : List String), a.Nodup → b.Nodup →
      (a.filter (fun t => b.contains t)).length = (a.toFinset ∩ b.toFinset).card := by
    intro a b ha _
    have hnd : (a.filter (fun t => b.contains t)).Nodup := ha.filter _
    rw [← List.toFinset_card_of_nodup hnd, List.toFinset_filter]
    congr 1
    ext x
    simp [List.mem_toFinset, Finset.mem_inter, Finset.mem_filter]
  rw [key l1 l2 h1 h2, key l2 l1 h2 h1, Finset.inter_comm]

/-- Membership in the stable insertion. -/
theorem mem_insertDesc {key : α → Int} {x z : α} {l : List α} :
    z ∈ insertDesc key x l ↔ z = x ∨ z ∈ l := by
  induction l with
  | nil => simp [insertDesc]
  | cons y ys ih =>
    rw [insertDesc]
    by_cases h : key x < key y
    · simp only [if_pos h, List.mem_cons, ih]
      tauto
    · simp only [if_neg h, List.mem_cons]

/-- Membership in the stable sort. -/
theorem mem_sortByDesc {key : α → Int} {z : α} {l : List α} :
    z ∈ sortByDesc key l ↔ z ∈ l := by
  induction l with
  | nil => simp [sortByDesc]
  | cons x xs ih => rw [sortByDesc, mem_insertDesc, ih, List.mem_cons]

theorem pairwise_insertDesc {key : α → Int} {x : α} {l : List α}
    (h : l.Pairwise (fun a b => key b ≤ key a)) :
    (insertDesc key x l).Pairwise (fun a b => key b ≤ key a) := by
  induction l with
  | nil => simp [insertDesc]
  | cons y ys ih =>
    rw [List.pairwise_cons] at h
    rw [insertDesc]
    by_cases hk : key x < key y
    · rw [if_pos hk, List.pairwise_cons]
      refine ⟨fun z hz => ?_, ih h.2⟩
      rcases mem_insertDesc.1 hz with rfl | hz
      · exact le_of_lt hk
      · exact h.1 z hz
    · rw [if_neg hk, List.pairwise_cons]
      push_neg at hk
      refine ⟨fun z hz => ?_, List.pairwise_cons.2 h⟩
      rcases List.mem_cons.1 hz with rfl | hz
      · exact hk
      · exact le_trans (h.1 z hz) hk

/-- The stable sort is sorted in descending key order. -/
theorem pairwise_sortByDesc (key : α → Int) (l : List α) :
    (sortByDesc key l).Pairwise (fun a b => key b ≤ key a) := by
  induction l with
  | nil => simp [sortByDesc]
  | cons x xs ih => exact pairwise_insertDesc ih

/-- Inserting an element does not disturb the subsequence of any fixed key
value other than prepending the new element when it carries that key — the
heart of stability. -/
theorem filter_insertDesc (key : α → Int) (x : α) (l : List α) (c : Int) :
    (insertDesc key x l).filter (fun z => key z == c) =
      if key x == c then x :: l.filter (fun z => key z == c)
      else l.filter (fun z => key z == c) := by
  induction l with
  | nil =>
    rw [insertDesc]
    by_cases hc : key x == c
    · simp only [List.filter_cons, List.filter_nil, hc, if_true]
    · simp only [List.filter_cons, List.filter_nil, hc, Bool.false_eq_true, if_false]
  | cons y ys ih =>
    rw [insertDesc]
    by_cases hk : key x < key y
    · rw [if_pos hk]
      by_cases hc : key x == c
      · have hyc : (key y == c) = false := by
          rw [beq_eq_false_iff_ne]
          rw [beq_iff_eq] at hc
          omega
        simp only [List.filter_cons, hyc, ih, hc, if_true, Bool.false_eq_true, if_false]
      · simp only [List.filter_cons, ih, hc, Bool.false_eq_true, if_false]
    · rw [if_neg hk]
      by_cases hc : key x == c
      · simp only [List.filter_cons, hc, if_true]
      · simp only [List.filter_cons, hc, Bool.false_eq_true, if_false]

/-- Stability of the sort: the subsequence at any fixed key value is exactly
the input's subsequence at that value. -/
theorem filter_sortByDesc (key : α → Int) (l : List α) (c : Int) :
    (sortByDesc key l).filter (fun z => key z == c) =
      l.filter (fun z => key z == c) := by
  induction l with
  | nil => rfl
  | cons x xs ih =>
    rw [sortByDesc, filter_insertDesc, List.filter_cons]
    by_cases hc : key x == c
    · simp only [hc, if_true, ih]
    · simp only [hc, Bool.false_eq_true, if_false, ih]

/-! ## Claims C3, C4, C5: the similarity scorer -/

/-- Concrete notes witnessing the asymmetry of the tag term under duplicate
tags. -/
def noteDupTags : Note :=
  { id := "a", title := "", date := 0, project := "w", content := "",
    actionPoints := [], tags := ["x", "x"], linkedNotes := [],
    createdAt := "", updatedAt := "" }

/-- Companion note with the tag appearing once. -/
def noteOneTag : Note :=
  { id := "b", title := "", date := 0, project := "w", content := "",
    actionPoints := [], tags := ["x"], linkedNotes := [],
    createdAt := "", updatedAt := "" }

/-- C3 counterexample: the scorer is not symmetric for every pair of notes.
With tags `["x", "x"]` against `["x"]` the filter-then-count tag term gives
40 one way and 20 the other, so the scores differ (60 versus 40). -/
theorem calculateSimilarity_not_symmetric :
    calculateSimilarity noteDupTags noteOneTag ≠
      calculateSimilarity noteOneTag noteDupTags := by decide

/-- C3 (amended): the similarity scorer is symmetric for notes whose tag
sequences contain no duplicates; every other term is symmetric outright. -/
theorem calculateSimilarity_symm (note1 note2 : Note)
    (h1 : note1.tags.Nodup) (h2 : note2.tags.Nodup) :
    calculateSimilarity note1 note2 = calculateSimilarity note2 note1 := by
  rw [calculateSimilarity, calculateSimilarity]
  have hid : (note1.id == note2.id) = (note2.id == note1.id) := Bool.beq_comm
  rw [hid]
  by_cases hguard : note2.id == note1.id
  · rw [if_pos hguard, if_pos hguard]
  · rw [if_neg hguard, if_neg hguard]
    have htag : tagScore note1 note2 = tagScore note2 note1 := by
      rw [tagScore, tagScore, length_filter_contains_comm note1.tags note2.tags h1 h2]
    have hkw : keywordScore note1 note2 = keywordScore note2 note1 := by
      rw [keywordScore, keywordScore, keywordOverlap, keywordOverlap,
        totalKeywords, totalKeywords,
        length_filter_contains_comm (noteKeywords note1) (noteKeywords note2)
          (dedupFirst_nodup _) (dedupFirst_nodup _),
        Nat.max_comm (noteKeywords note1).length (noteKeywords note2).length]
    have hproj : projectScore note1 note2 = projectScore note2 note1 := by
      rw [projectScore, projectScore, Bool.beq_comm]
    have hdd : daysDiff note1 note2 = daysDiff note2 note1 := by
      rw [daysDiff, daysDiff]
      congr 2
      omega
    have hdate : dateScore note1 note2 = dateScore note2 note1 := by
      rw [dateScore, dateScore, hdd]
    have hass : assigneeScore note1 note2 = assigneeScore note2 note1 := by
      rw [assigneeScore, assigneeScore,
        length_filter_contains_comm (assigneesOf note1) (assigneesOf note2)
          (dedupFirst_nodup _) (dedupFirst_nodup _)]
    rw [htag, hkw, hproj, hdate, hass]

/-- Witness for the amended C3 theorem at a concrete pair of notes. -/
theorem calculateSimilarity_symm_witness :
    calculateSimilarity noteOneTag
        { noteDupTags with tags := ["x", "y"] } =
      calculateSimilarity { noteDupTags with tags := ["x", "y"] } noteOneTag :=
  calculateSimilarity_symm noteOneTag { noteDupTags with tags := ["x", "y"] }
    (by decide) (by decide)

/-- C4 counterexample: contrary to the claim, `"will"` is in the extractor's
stop-word list, so it does not survive extraction on the claimed sentence. -/
theorem extractKeywords_will_dropped :
    ¬ ("will" ∈ extractKeywords "The team will review the plan on Monday") := by
  decide

/-- C4 (amended): the extraction yields exactly
`{team, review, plan, monday}` — "the" and "on" are removed (stop word and
length ≤ 2 respectively) and "will" is removed as a stop word. -/
theorem extractKeywords_concrete :
    extractKeywords "The team will review the plan on Monday" =
      ["team", "review", "plan", "monday"] := by decide

/-- C5: any two distinct notes sharing exactly one tag (as counted by the
filter over the first note's tags), with keyword overlap 4 out of a larger
keyword set of 6, in the same project, dated the same day, and sharing no
action-point assignees, score exactly 73. -/
theorem calculateSimilarity_concrete_73 (note1 note2 : Note)
    (hid : note1.id ≠ note2.id)
    (htag : (note1.tags.filter (fun t => note2.tags.contains t)).length = 1)
    (hovl : keywordOverlap note1 note2 = 4)
    (htot : totalKeywords note1 note2 = 6)
    (hproj : note1.project = note2.project)
    (hdate : note1.date = note2.date)
    (hass : ((assigneesOf note1).filter
      (fun a => (assigneesOf note2).contains a)).length = 0) :
    calculateSimilarity note1 note2 = 73 := by
  rw [calculateSimilarity]
  rw [if_neg (by simp [hid])]
  rw [tagScore, htag, keywordScore, hovl, htot]
  rw [if_pos (by omega)]
  rw [projectScore, if_pos (by simp [hproj])]
  rw [assigneeScore, hass]
  have hdd : daysDiff note1 note2 = Q.div (Q.ofInt 0) (Q.ofInt (1000 * 60 * 60 * 24)) := by
    rw [daysDiff, hdate]
    simp
  rw [dateScore, hdd]
  rw [if_pos (by decide)]
  decide

/-- Witness for C5 at a concrete pair of notes satisfying every hypothesis. -/
theorem calculateSimilarity_concrete_73_witness :
    calculateSimilarity
        { id := "a", title := "", date := 0, project := "work",
          content := "alpha beta gamma delta epsilon zeta", actionPoints := [],
          tags := ["sprint"], linkedNotes := [], createdAt := "", updatedAt := "" }
        { id := "b", title := "", date := 0, project := "work",
          content := "alpha beta gamma delta", actionPoints := [],
          tags := ["sprint"], linkedNotes := [], createdAt := "", updatedAt := "" } = 73 :=
  calculateSimilarity_concrete_73 _ _ (by decide) (by decide) (by decide)
    (by decide) (by decide) (by decide) (by decide)

/-! ## Claims C6, C7: the Related-Note Finder -/

/-- The relevance score recorded on a link (every Finder output carries one). -/
def scoreOf (link : NoteLink) : Int := link.relevanceScore.getD 0

theorem mem_scoredCandidates {store : Store} {sourceNote : Note} {minScore : Int}
    {item : Note × Int} (h : item ∈ scoredCandidates store sourceNote minScore) :
    minScore ≤ item.2 ∧ item.2 = calculateSimilarity sourceNote item.1 := by
  rw [scoredCandidates] at h
  have h1 := List.of_mem_filter h
  have h2 := List.mem_of_mem_filter h
  rcases List.mem_map.1 h2 with ⟨note, _, rfl⟩
  simp at h1
  exact ⟨h1, rfl⟩

/-- C6: Finder output is sorted by descending relevance score, every score
meets `minScore`, the output has at most `limit` entries, and the sort stage
is stable: for any fixed score value, its subsequence equals the scored
pool's subsequence in enumeration order. -/
theorem findRelatedNotes_sorted_bounded (store : Store)
    (projectName noteId : String) (limit : Nat) (minScore : Int) :
    (findRelatedNotes store projectName noteId limit minScore).Pairwise
      (fun a b => scoreOf b ≤ scoreOf a) ∧
    (∀ link ∈ findRelatedNotes store projectName noteId limit minScore,
      minScore ≤ scoreOf link) ∧
    (findRelatedNotes store projectName noteId limit minScore).length ≤ limit ∧
    (∀ (sourceNote : Note) (c : Int),
      (sortByDesc (fun item => item.2)
          (scoredCandidates store sourceNote minScore)).filter
        (fun item => item.2 == c) =
      (scoredCandidates store sourceNote minScore).filter
        (fun item => item.2 == c)) := by
  refine ⟨?_, ?_, ?_, fun sourceNote c => filter_sortByDesc _ _ c⟩
  · rw [findRelatedNotes]
    cases hsrc : getNote store projectName noteId with
    | none => simp
    | some sourceNote =>
      rw [List.pairwise_map]
      refine List.Pairwise.sublist (List.take_sublist _ _) ?_
      have := pairwise_sortByDesc (fun item : Note × Int => item.2)
        (scoredCandidates store sourceNote minScore)
      exact this.imp (fun h => h)
  · rw [findRelatedNotes]
    cases hsrc : getNote store projectName noteId with
    | none => simp
    | some sourceNote =>
      intro link hlink
      rcases List.mem_map.1 hlink with ⟨item, hitem, rfl⟩
      have hmem : item ∈ sortByDesc (fun item : Note × Int => item.2)
          (scoredCandidates store sourceNote minScore) :=
        (List.take_sublist _ _).subset hitem
      have := (mem_scoredCandidates (mem_sortByDesc.1 hmem)).1
      simpa [toRelatedLink, scoreOf] using this
  · rw [findRelatedNotes]
    cases hsrc : getNote store projectName noteId with
    | none => simp
    | some sourceNote =>
      rw [List.length_map]
      exact le_trans (List.length_take_le _ _) (le_refl _)

/-- A minimal one-note store for the Finder counterexample. -/
def soloStore : Store :=
  [⟨"p", [{ id := "a", title := "A", date := 0, project := "p", content := "",
            actionPoints := [], tags := [], linkedNotes := [],
            createdAt := "", updatedAt := "" }]⟩]

/-- C7 counterexample: with `minScore = 0` the source note itself (scoring 0
against itself) passes the filter and is returned, so the source is *not*
excluded for every `minScore`. -/
theorem findRelatedNotes_returns_source_at_minScore_zero :
    (findRelatedNotes soloStore "p" "a" 5 0).map (fun l => l.noteId) = ["a"] := by
  decide

/-- C7 (amended): self-similarity is always 0, and for every *positive*
`minScore` the source note never appears in the Finder output even though
the candidate pool contains it. -/
theorem findRelatedNotes_excludes_source (store : Store)
    (projectName noteId : String) (limit : Nat) (minScore : Int)
    (sourceNote : Note) (hpos : 1 ≤ minScore)
    (hsrc : getNote store projectName noteId = some sourceNote) :
    (∀ n : Note, calculateSimilarity n n = 0) ∧
    (∀ link ∈ findRelatedNotes store projectName noteId limit minScore,
      link.noteId ≠ sourceNote.id) := by
  refine ⟨fun n => by rw [calculateSimilarity, if_pos (by simp)], ?_⟩
  intro link hlink
  rw [findRelatedNotes, hsrc] at hlink
  rcases List.mem_map.1 hlink with ⟨item, hitem, rfl⟩
  have hmem : item ∈ sortByDesc (fun item : Note × Int => item.2)
      (scoredCandidates store sourceNote minScore) :=
    (List.take_sublist _ _).subset hitem
  have hsc := mem_scoredCandidates (mem_sortByDesc.1 hmem)
  intro heq
  have hzero : calculateSimilarity sourceNote item.1 = 0 := by
    rw [calculateSimilarity, if_pos]
    rw [toRelatedLink] at heq
    simp only at heq
    simp [heq]
  omega

/-- First note of the two-note Finder store. -/
def pairNoteA : Note :=
  { id := "a", title := "A", date := 0, project := "p",
    content := "alpha beta gamma", actionPoints := [], tags := ["t1"],
    linkedNotes := [], createdAt := "", updatedAt := "" }

/-- Second note of the two-note Finder store. -/
def pairNoteB : Note :=
  { id := "b", title := "B", date := 0, project := "p",
    content := "alpha beta gamma", actionPoints := [], tags := ["t1"],
    linkedNotes := [], createdAt := "", updatedAt := "" }

/-- A two-note store in which the Finder returns a true related note. -/
def pairStore : Store := [⟨"p", [pairNoteA, pairNoteB]⟩]

/-- Witness for the amended C7 theorem at the default `minScore = 15`. -/
theorem findRelatedNotes_excludes_source_witness :
    (∀ n : Note, calculateSimilarity n n = 0) ∧
    (∀ link ∈ findRelatedNotes pairStore "p" "a" 5 15,
      link.noteId ≠ pairNoteA.id) :=
  findRelatedNotes_excludes_source pairStore "p" "a" 5 15 pairNoteA
    (by decide) (by decide)

/-! ## Lemmas about `updateNote` and `getNote` -/

theorem applyUpdates_id (n : Note) (u : NoteUpdates) (now : String) :
    (applyUpdates n u now).id = n.id := rfl

theorem updateNotesList_not_found {noteId : String} {u : NoteUpdates} {now : String}
    {ns : List Note} (h : ns.find? (fun m => m.id == noteId) = none) :
    updateNotesList noteId u now ns = (ns, none) := by
  induction ns with
  | nil => rfl
  | cons n ns ih =>
    rw [List.find?_cons] at h
    cases hn : (n.id == noteId) with
    | true => rw [hn] at h; exact absurd h (by simp)
    | false =>
      rw [hn] at h
      rw [updateNotesList, if_neg (by simp [hn]), ih h]

theorem updateNotesList_found (u : NoteUpdates) (now : String) {noteId : String}
    {ns : List Note} {n : Note}
    (h : ns.find? (fun m => m.id == noteId) = some n) :
    (updateNotesList noteId u now ns).2 = some (applyUpdates n u now) ∧
    (updateNotesList noteId u now ns).1.find? (fun m => m.id == noteId) =
      some (applyUpdates n u now) := by
  induction ns with
  | nil => simp at h
  | cons m ms ih =>
    rw [List.find?_cons] at h
    cases hm : (m.id == noteId) with
    | true =>
      rw [hm] at h
      have hmn : m = n := by simpa using h
      subst hmn
      rw [updateNotesList, if_pos hm]
      refine ⟨rfl, ?_⟩
      rw [List.find?_cons]
      have : ((applyUpdates m u now).id == noteId) = true := by
        rw [applyUpdates_id]; exact hm
      rw [this]
    | false =>
      rw [hm] at h
      have := ih h
      rw [updateNotesList, if_neg (by simp [hm])]
      refine ⟨this.1, ?_⟩
      rw [List.find?_cons, hm]
      exact this.2

theorem updateNotesList_find?_other {noteId id2 : String} {u : NoteUpdates}
    {now : String} {ns : List Note} (hne : id2 ≠ noteId) :
    (updateNotesList noteId u now ns).1.find? (fun m => m.id == id2) =
      ns.find? (fun m => m.id == id2) := by
  induction ns with
  | nil => rfl
  | cons n ns ih =>
    cases hn : (n.id == noteId) with
    | true =>
      rw [updateNotesList, if_pos hn]
      have h1 : ((applyUpdates n u now).id == id2) = false := by
        rw [applyUpdates_id]
        rw [beq_iff_eq] at hn
        simp [hn, Ne.symm hne]
      have h2 : (n.id == id2) = false := by
        rw [beq_iff_eq] at hn
        simp [hn, Ne.symm hne]
      rw [List.find?_cons, List.find?_cons, h1, h2]
    | false =>
      rw [updateNotesList, if_neg (by simp [hn])]
      rw [List.find?_cons, List.find?_cons]
      cases h2 : (n.id == id2) with
      | true => rfl
      | false => exact ih

theorem updateNote_spec (u : NoteUpdates) (now : String) {store : Store}
    {p id : String} {n : Note} (h : getNote store p id = some n) :
    ∃ store2, updateNote store p id u now =
        some (store2, some (applyUpdates n u now)) ∧
      getNote store2 p id = some (applyUpdates n u now) := by
  induction store with
  | nil => simp [getNote, getProject] at h
  | cons pr prs ih =>
    cases hpr : (pr.name == p) with
    | true =>
      simp only [getNote, getProject, List.find?_cons, hpr] at h
      have hfound := updateNotesList_found u now h
      refine ⟨⟨pr.name, (updateNotesList id u now pr.notes).1⟩ :: prs, ?_, ?_⟩
      · rw [updateNote, if_pos hpr]
        simp only [hfound.1]
      · simp only [getNote, getProject, List.find?_cons, hpr]
        exact hfound.2
    | false =>
      simp only [getNote, getProject, List.find?_cons, hpr] at h
      have h' : getNote prs p id = some n := by rw [getNote, getProject]; exact h
      rcases ih h' with ⟨s2, hupd, hget⟩
      refine ⟨pr :: s2, ?_, ?_⟩
      · rw [updateNote, if_neg (by simp [hpr]), hupd]
      · simp only [getNote, getProject, List.find?_cons, hpr]
        rw [getNote, getProject] at hget
        exact hget

theorem updateNote_getNote_other {store store2 : Store} {p id p2 id2 : String}
    {u : NoteUpdates} {now : String} {m : Note} {res : Option Note}
    (hne : ¬(p2 = p ∧ id2 = id))
    (hget : getNote store p2 id2 = some m)
    (hupd : updateNote store p id u now = some (store2, res)) :
    getNote store2 p2 id2 = some m := by
  induction store generalizing store2 with
  | nil => simp [updateNote] at hupd
  | cons pr prs ih =>
    cases hpr : (pr.name == p) with
    | true =>
      rw [updateNote, if_pos hpr] at hupd
      have hstore2 : store2 = ⟨pr.name, (updateNotesList id u now pr.notes).1⟩ :: prs := by
        injection hupd with h1
        exact (congrArg Prod.fst h1).symm
      subst hstore2
      cases hpr2 : (pr.name == p2) with
      | true =>
        simp only [getNote, getProject, List.find?_cons, hpr2] at hget ⊢
        have hid2 : id2 ≠ id := by
          rw [beq_iff_eq] at hpr hpr2
          intro hid
          exact hne ⟨by rw [← hpr2, hpr], hid⟩
        rw [updateNotesList_find?_other hid2]
        exact hget
      | false =>
        simp only [getNote, getProject, List.find?_cons, hpr2] at hget ⊢
        exact hget
    | false =>
      rw [updateNote, if_neg (by simp [hpr])] at hupd
      cases hrec : updateNote prs p id u now with
      | none => rw [hrec] at hupd; exact absurd hupd (by simp)
      | some r2 =>
        rw [hrec] at hupd
        have hstore2 : store2 = pr :: r2.1 := by
          injection hupd with h1
          have := congrArg Prod.fst h1
          simpa using this.symm
        subst hstore2
        cases hpr2 : (pr.name == p2) with
        | true =>
          simp only [getNote, getProject, List.find?_cons, hpr2] at hget ⊢
          exact hget
        | false =>
          simp only [getNote, getProject, List.find?_cons, hpr2] at hget ⊢
          have h1 : getNote prs p2 id2 = some m := by rw [getNote, getProject]; exact hget
          have h2 : updateNote prs p id u now = some (r2.1, res) := by
            rw [hrec]
            have : r2.2 = res := by
              injection hupd with h3
              exact congrArg Prod.snd h3
            rw [← this]
          have := ih h1 h2
          rw [getNote, getProject] at this
          exact this

/-! ## Claim C10: the frame condition of `updateNote` -/

/-- C10: `updateNote` invoked with a `linkedNotes`-only update record (as the
linking service does) rewrites the persisted note with only `linkedNotes`
and `updatedAt` changed; every other field is preserved verbatim. -/
theorem updateNote_frame (store : Store) (p id : String) (L : List NoteLink)
    (now : String) (n : Note) (h : getNote store p id = some n) :
    ∃ store2 n2, updateNote store p id { linkedNotes := some L } now =
        some (store2, some n2) ∧
      getNote store2 p id = some n2 ∧
      n2.id = n.id ∧ n2.title = n.title ∧ n2.date = n.date ∧
      n2.project = n.project ∧ n2.content = n.content ∧ n2.tags = n.tags ∧
      n2.actionPoints = n.actionPoints ∧ n2.createdAt = n.createdAt ∧
      n2.linkedNotes = L ∧ n2.updatedAt = now := by
  rcases updateNote_spec ({ linkedNotes := some L }) now h with ⟨s2, h1, h2⟩
  exact ⟨s2, _, h1, h2, rfl, rfl, rfl, rfl, rfl, rfl, rfl, rfl, rfl, rfl⟩

/-- Witness for C10 at a concrete store. -/
theorem updateNote_frame_witness :
    ∃ store2 n2, updateNote pairStore "p" "a" { linkedNotes := some [] } "t2" =
        some (store2, some n2) ∧
      getNote store2 "p" "a" = some n2 ∧
      n2.id = pairNoteA.id ∧ n2.title = pairNoteA.title ∧ n2.date = pairNoteA.date ∧
      n2.project = pairNoteA.project ∧ n2.content = pairNoteA.content ∧
      n2.tags = pairNoteA.tags ∧ n2.actionPoints = pairNoteA.actionPoints ∧
      n2.createdAt = pairNoteA.createdAt ∧
      n2.linkedNotes = [] ∧ n2.updatedAt = "t2" :=
  updateNote_frame pairStore "p" "a" [] "t2" pairNoteA (by decide)

/-! ## Claims C2, C8: manual link lifecycle -/

theorem applyUpdates_twice (n : Note) (L1 L2 : List NoteLink) (now1 now2 : String) :
    applyUpdates (applyUpdates n { linkedNotes := some L1 } now1)
        { linkedNotes := some L2 } now2 =
      applyUpdates n { linkedNotes := some L2 } now2 := rfl

theorem linkNotes_success_spec (now : String) {store : Store} {sp sid tp tid : String}
    {s t : Note}
    (hs : getNote store sp sid = some s) (ht : getNote store tp tid = some t)
    (hnl : s.linkedNotes.any (fun l => l.noteId == tid) = false) :
    ∃ store2,
      linkNotes store sp sid tp tid now = some
        ({ success := true,
           message := "Linked \"" ++ s.title ++ "\" <-> \"" ++ t.title ++ "\"" }, store2) ∧
      getNote store2 tp tid = some (applyUpdates t
        { linkedNotes := some (t.linkedNotes ++
            [{ noteId := sid, noteTitle := s.title, project := sp,
               linkType := LinkType.backlink }]) } now) ∧
      (¬(tp = sp ∧ tid = sid) → getNote store2 sp sid = some (applyUpdates s
        { linkedNotes := some (s.linkedNotes ++
            [{ noteId := tid, noteTitle := t.title, project := tp,
               linkType := LinkType.manual }]) } now)) := by
  rcases updateNote_spec ({ linkedNotes := some (s.linkedNotes ++
      [{ noteId := tid, noteTitle := t.title, project := tp,
         linkType := LinkType.manual }]) }) now hs with ⟨store1, hu1, hg1⟩
  by_cases halias : tp = sp ∧ tid = sid
  · rcases halias with ⟨rfl, rfl⟩
    have hts : t = s := by rw [hs] at ht; exact (Option.some_inj.1 ht).symm
    subst hts
    rcases updateNote_spec ({ linkedNotes := some (t.linkedNotes ++
        [{ noteId := tid, noteTitle := t.title, project := tp,
           linkType := LinkType.backlink }]) }) now hg1 with ⟨store2, hu2, hg2⟩
    refine ⟨store2, ?_, ?_, fun hcon => absurd ⟨rfl, rfl⟩ hcon⟩
    · simp only [linkNotes, hs, hnl, Bool.false_eq_true, if_false, hu1, hu2]
    · rw [applyUpdates_twice] at hg2
      exact hg2
  · have hg1t : getNote store1 tp tid = some t :=
      updateNote_getNote_other halias ht hu1
    rcases updateNote_spec ({ linkedNotes := some (t.linkedNotes ++
        [{ noteId := sid, noteTitle := s.title, project := sp,
           linkType := LinkType.backlink }]) }) now hg1t with ⟨store2, hu2, hg2⟩
    refine ⟨store2, ?_, hg2, fun _ => ?_⟩
    · simp only [linkNotes, hs, ht, hnl, Bool.false_eq_true, if_false, hu1, hu2]
    · have hne2 : ¬(sp = tp ∧ sid = tid) := by
        intro hcon
        exact halias ⟨hcon.1.symm, hcon.2.symm⟩
      exact updateNote_getNote_other hne2 hg1 hu2

def linkFailCond (store : Store) (sp sid tp tid : String) : Prop :=
  getNote store sp sid = none ∨ getNote store tp tid = none ∨
    ∃ s, getNote store sp sid = some s ∧
      s.linkedNotes.any (fun l => l.noteId == tid) = true

/-- C8: `linkNotes` never throws (it always returns a `some` result); it
returns `{success:false}` and leaves the store untouched exactly when a
note is missing or the source already carries a link entry with the target
id; and an identical second call after a success fails with no state
change. -/
theorem linkNotes_soft_failure (store : Store) (sp sid tp tid now : String) :
    (∃ r store2, linkNotes store sp sid tp tid now = some (r, store2) ∧
      ((r.success = false ∧ store2 = store) ↔ linkFailCond store sp sid tp tid)) ∧
    (∀ r store2, linkNotes store sp sid tp tid now = some (r, store2) →
      r.success = true →
      ∃ r2, linkNotes store2 sp sid tp tid now = some (r2, store2) ∧
        r2.success = false) := by
  constructor
  · cases hs : getNote store sp sid with
    | none =>
      refine ⟨{ success := false, message := "One or both notes not found" }, store,
        by simp only [linkNotes, hs], ?_⟩
      simp [linkFailCond, hs]
    | some s =>
      cases ht : getNote store tp tid with
      | none =>
        refine ⟨{ success := false, message := "One or both notes not found" }, store,
          by simp only [linkNotes, hs, ht], ?_⟩
        simp [linkFailCond, hs, ht]
      | some t =>
        cases hal : s.linkedNotes.any (fun l => l.noteId == tid) with
        | true =>
          refine ⟨{ success := false, message := "Notes are already linked" }, store,
            by simp only [linkNotes, hs, ht, hal, if_true], ?_⟩
          simp [linkFailCond, hs, ht]
          simpa using hal
        | false =>
          rcases linkNotes_success_spec now hs ht hal with ⟨store2, hlink, _, _⟩
          refine ⟨_, _, hlink, ?_⟩
          constructor
          · intro hcon
            exact absurd hcon.1 (by simp)
          · intro hcond
            exfalso
            rcases hcond with h | h | ⟨s', hs', hal'⟩
            · rw [hs] at h; exact absurd h (by simp)
            · rw [ht] at h; exact absurd h (by simp)
            · rw [hs] at hs'
              rw [(Option.some_inj.1 hs').symm] at hal'
              rw [hal] at hal'
              exact absurd hal' (by simp)
  · intro r store2 hlink hsucc
    cases hs : getNote store sp sid with
    | none =>
      rw [show linkNotes store sp sid tp tid now =
          some ({ success := false, message := "One or both notes not found" }, store) by
        simp only [linkNotes, hs]] at hlink
      injection hlink with h1
      rw [Prod.mk.injEq] at h1
      rw [← h1.1] at hsucc
      simp at hsucc
    | some s =>
      cases ht : getNote store tp tid with
      | none =>
        rw [show linkNotes store sp sid tp tid now =
            some ({ success := false, message := "One or both notes not found" }, store) by
          simp only [linkNotes, hs, ht]] at hlink
        injection hlink with h1
        rw [Prod.mk.injEq] at h1
        rw [← h1.1] at hsucc
        simp at hsucc
      | some t =>
        cases hal : s.linkedNotes.any (fun l => l.noteId == tid) with
        | true =>
          rw [show linkNotes store sp sid tp tid now =
              some ({ success := false, message := "Notes are already linked" }, store) by
            simp only [linkNotes, hs, ht, hal, if_true]] at hlink
          injection hlink with h1
          rw [Prod.mk.injEq] at h1
          rw [← h1.1] at hsucc
          simp at hsucc
        | false =>
          rcases linkNotes_success_spec now hs ht hal with
            ⟨store2', hlink', hgt, hgs⟩
          rw [hlink'] at hlink
          injection hlink with h1
          rw [Prod.mk.injEq] at h1
          have hstore : store2 = store2' := h1.2.symm
          subst hstore
          by_cases halias : tp = sp ∧ tid = sid
          · rcases halias with ⟨rfl, rfl⟩
            have hany : ((applyUpdates t { linkedNotes := some (t.linkedNotes ++
                [{ noteId := tid, noteTitle := s.title, project := tp,
                   linkType := LinkType.backlink }]) } now).linkedNotes.any
                  (fun l => l.noteId == tid)) = true := by
              simp [applyUpdates]
            refine ⟨{ success := false, message := "Notes are already linked" }, ?_, rfl⟩
            simp only [linkNotes, hgt, hany, if_true]
          · have hgs' := hgs halias
            have hany : ((applyUpdates s { linkedNotes := some (s.linkedNotes ++
                [{ noteId := tid, noteTitle := t.title, project := tp,
                   linkType := LinkType.manual }]) } now).linkedNotes.any
                  (fun l => l.noteId == tid)) = true := by
              simp [applyUpdates]
            refine ⟨{ success := false, message := "Notes are already linked" }, ?_, rfl⟩
            simp only [linkNotes, hgs', hgt, hany, if_true]

/-- `unlinkNotes` on two existing notes succeeds, persisting the target
with the source's entries filtered out; when the references are distinct,
the source is likewise persisted with the target's entries filtered out. -/
theorem unlinkNotes_spec (now : String) {store : Store} {sp sid tp tid : String}
    {s t : Note}
    (hs : getNote store sp sid = some s) (ht : getNote store tp tid = some t) :
    ∃ store2,
      unlinkNotes store sp sid tp tid now =
        some ({ success := true, message := "Notes unlinked" }, store2) ∧
      getNote store2 tp tid = some (applyUpdates t
        { linkedNotes := some (t.linkedNotes.filter (fun l => !(l.noteId == sid))) } now) ∧
      (¬(tp = sp ∧ tid = sid) → getNote store2 sp sid = some (applyUpdates s
        { linkedNotes := some (s.linkedNotes.filter (fun l => !(l.noteId == tid))) } now)) := by
  rcases updateNote_spec ({ linkedNotes := some (s.linkedNotes.filter (fun l => !(l.noteId == tid))) }) now hs with
    ⟨store1, hu1, hg1⟩
  by_cases halias : tp = sp ∧ tid = sid
  · rcases halias with ⟨rfl, rfl⟩
    have hts : t = s := by rw [hs] at ht; exact (Option.some_inj.1 ht).symm
    subst hts
    rcases updateNote_spec ({ linkedNotes := some (t.linkedNotes.filter (fun l => !(l.noteId == tid))) }) now hg1 with
      ⟨store2, hu2, hg2⟩
    refine ⟨store2, ?_, ?_, fun hcon => absurd ⟨rfl, rfl⟩ hcon⟩
    · simp only [unlinkNotes, hs, hu1, hu2]
    · rw [applyUpdates_twice] at hg2
      exact hg2
  · have hg1t : getNote store1 tp tid = some t :=
      updateNote_getNote_other halias ht hu1
    rcases updateNote_spec ({ linkedNotes := some (t.linkedNotes.filter (fun l => !(l.noteId == sid))) }) now hg1t with
      ⟨store2, hu2, hg2⟩
    refine ⟨store2, ?_, hg2, fun _ => ?_⟩
    · simp only [unlinkNotes, hs, ht, hu1, hu2]
    · exact updateNote_getNote_other
        (fun hcon => halias ⟨hcon.1.symm, hcon.2.symm⟩) hg1 hu2

/-- C2 (amended): for two existing notes addressed by *distinct* (project,
id) references, a successful `linkNotes` leaves a `manual` entry for the
target on the source's side and a `backlink` entry for the source on the
target's side; and `unlinkNotes` removes every entry referencing the other
note from both sides. -/
theorem linkNotes_bidirectional (store : Store) (sp sid tp tid now : String) (s t : Note)
    (hs : getNote store sp sid = some s) (ht : getNote store tp tid = some t)
    (hdist : ¬(tp = sp ∧ tid = sid)) :
    (∀ r store2, linkNotes store sp sid tp tid now = some (r, store2) →
      r.success = true →
      (∃ l ∈ getLinkedNotes store2 sp sid,
        l.noteId = tid ∧ l.project = tp ∧ l.linkType = LinkType.manual) ∧
      (∃ l ∈ getLinkedNotes store2 tp tid,
        l.noteId = sid ∧ l.project = sp ∧ l.linkType = LinkType.backlink)) ∧
    (∀ r2 store3, unlinkNotes store sp sid tp tid now = some (r2, store3) →
      (∀ l ∈ getLinkedNotes store3 sp sid, l.noteId ≠ tid) ∧
      (∀ l ∈ getLinkedNotes store3 tp tid, l.noteId ≠ sid)) := by
  constructor
  · intro r store2 hlink hsucc
    cases hal : s.linkedNotes.any (fun l => l.noteId == tid) with
    | true =>
      rw [show linkNotes store sp sid tp tid now =
          some ({ success := false, message := "Notes are already linked" }, store) by
        simp only [linkNotes, hs, ht, hal, if_true]] at hlink
      injection hlink with h1
      rw [Prod.mk.injEq] at h1
      rw [← h1.1] at hsucc
      simp at hsucc
    | false =>
      rcases linkNotes_success_spec now hs ht hal with ⟨store2', hlink', hgt, hgs⟩
      rw [hlink'] at hlink
      injection hlink with h1
      rw [Prod.mk.injEq] at h1
      have hst : store2 = store2' := h1.2.symm
      subst hst
      constructor
      · have hgs' := hgs hdist
        simp only [getLinkedNotes, hgs']
        refine ⟨{ noteId := tid, noteTitle := t.title, project := tp,
                  linkType := LinkType.manual }, ?_, rfl, rfl, rfl⟩
        simp [applyUpdates]
      · simp only [getLinkedNotes, hgt]
        refine ⟨{ noteId := sid, noteTitle := s.title, project := sp,
                  linkType := LinkType.backlink }, ?_, rfl, rfl, rfl⟩
        simp [applyUpdates]
  · intro r2 store3 hunlink
    rcases unlinkNotes_spec now hs ht with ⟨store3', hun', hgt, hgs⟩
    rw [hun'] at hunlink
    injection hunlink with h1
    rw [Prod.mk.injEq] at h1
    have hst : store3 = store3' := h1.2.symm
    subst hst
    constructor
    · have hgs' := hgs hdist
      simp only [getLinkedNotes, hgs']
      intro l hl
      have h2 : l ∈ s.linkedNotes ∧ ¬l.noteId = tid := by simpa [applyUpdates] using hl
      exact h2.2
    · simp only [getLinkedNotes, hgt]
      intro l hl
      have h2 : l ∈ t.linkedNotes ∧ ¬l.noteId = sid := by simpa [applyUpdates] using hl
      exact h2.2

/-- C2 counterexample: linking a note to itself succeeds, yet the second
(backlink) write overwrites the first, so the claimed `manual` entry is
absent — only a `backlink` entry remains. -/
theorem linkNotes_self_loses_manual :
    (linkNotes soloStore "p" "a" "p" "a" "t").map
      (fun r => (r.1.success, (getLinkedNotes r.2 "p" "a").map (fun l => l.linkType))) =
    some (true, [LinkType.backlink]) := by decide

/-- The store after successfully linking the two notes of `pairStore`. -/
def linkedPairStore : Store :=
  [⟨"p", [{ pairNoteA with
              linkedNotes := [{ noteId := "b", noteTitle := "B", project := "p",
                                linkType := LinkType.manual }]
              updatedAt := "t" },
          { pairNoteB with
              linkedNotes := [{ noteId := "a", noteTitle := "A", project := "p",
                                linkType := LinkType.backlink }]
              updatedAt := "t" }]⟩]

/-- The store after unlinking the (unlinked) notes of `pairStore`: only the
`updatedAt` stamps change. -/
def unlinkedPairStore : Store :=
  [⟨"p", [{ pairNoteA with updatedAt := "t" },
          { pairNoteB with updatedAt := "t" }]⟩]

/-- Witness for C8: after the concrete successful link, a second identical
call fails and leaves the store unchanged. -/
theorem linkNotes_soft_failure_witness :
    ∃ r2, linkNotes linkedPairStore "p" "a" "p" "b" "t" = some (r2, linkedPairStore) ∧
      r2.success = false :=
  (linkNotes_soft_failure pairStore "p" "a" "p" "b" "t").2
    { success := true, message := "Linked \"A\" <-> \"B\"" } linkedPairStore
    (by decide) rfl

/-- Witness for the amended C2 theorem on a concrete two-note store. -/
theorem linkNotes_bidirectional_witness :
    ((∃ l ∈ getLinkedNotes linkedPairStore "p" "a",
        l.noteId = "b" ∧ l.project = "p" ∧ l.linkType = LinkType.manual) ∧
     (∃ l ∈ getLinkedNotes linkedPairStore "p" "b",
        l.noteId = "a" ∧ l.project = "p" ∧ l.linkType = LinkType.backlink)) ∧
    ((∀ l ∈ getLinkedNotes unlinkedPairStore "p" "a", l.noteId ≠ "b") ∧
     (∀ l ∈ getLinkedNotes unlinkedPairStore "p" "b", l.noteId ≠ "a")) :=
  ⟨(linkNotes_bidirectional pairStore "p" "a" "p" "b" "t" pairNoteA pairNoteB
      (by decide) (by decide) (by decide)).1
      { success := true, message := "Linked \"A\" <-> \"B\"" } linkedPairStore
      (by decide) rfl,
   (linkNotes_bidirectional pairStore "p" "a" "p" "b" "t" pairNoteA pairNoteB
      (by decide) (by decide) (by decide)).2
      { success := true, message := "Notes unlinked" } unlinkedPairStore (by decide)⟩


/-! ## Claim C9: the graph builder -/

theorem lexLe_total (x y : List Char) (h : lexLe x y = false) : lexLe y x = true := by
  induction x generalizing y with
  | nil => simp [lexLe] at h
  | cons a as ih =>
    cases y with
    | nil => rfl
    | cons b bs =>
      rw [lexLe] at h
      rw [lexLe]
      by_cases h1 : a.toNat < b.toNat
      · rw [if_pos h1] at h
        exact absurd h (by simp)
      · rw [if_neg h1] at h
        by_cases h2 : b.toNat < a.toNat
        · rw [if_pos h2]
        · rw [if_neg h2] at h
          rw [if_neg h2, if_neg h1]
          exact ih bs h

theorem lexLe_antisymm (x y : List Char) (h1 : lexLe x y = true)
    (h2 : lexLe y x = true) : x = y := by
  induction x generalizing y with
  | nil =>
    cases y with
    | nil => rfl
    | cons b bs => simp [lexLe] at h2
  | cons a as ih =>
    cases y with
    | nil => simp [lexLe] at h1
    | cons b bs =>
      rw [lexLe] at h1 h2
      by_cases hab : a.toNat < b.toNat
      · rw [if_neg (by omega), if_pos hab] at h2
        exact absurd h2 (by simp)
      · rw [if_neg hab] at h1
        by_cases hba : b.toNat < a.toNat
        · rw [if_pos hba] at h1
          exact absurd h1 (by simp)
        · rw [if_neg hba] at h1
          rw [if_neg hab, if_neg hba] at h2
          have hv : a.toNat = b.toNat := by omega
          have hc : a = b := by
            have h3 := congrArg Char.ofNat hv
            rwa [Char.ofNat_toNat, Char.ofNat_toNat] at h3
          rw [hc, ih bs h1 h2]

theorem edgeKey_comm (a b : String) : edgeKey a b = edgeKey b a := by
  rw [edgeKey, edgeKey]
  by_cases h1 : lexLe a.data b.data = true
  · rw [if_pos h1]
    by_cases h2 : lexLe b.data a.data = true
    · have hdata : a.data = b.data := lexLe_antisymm _ _ h1 h2
      have hab : a = b := by
        cases a
        cases b
        exact congrArg String.mk hdata
      rw [hab]
      simp
    · rw [if_neg h2]
  · rw [if_neg h1]
    have h2 := lexLe_total _ _ (by simpa using h1)
    rw [if_pos h2]

/-- The unordered pair of an edge's endpoints. -/
def edgePair (e : GraphEdge) : Finset String := {e.source, e.target}

theorem pair_eq_key_eq {a b c d : String}
    (h : ({a, b} : Finset String) = {c, d}) : edgeKey a b = edgeKey c d := by
  have h2 : a = c ∧ b = d ∨ a = d ∧ b = c := by
    rw [← Finset.coe_inj] at h
    push_cast at h
    exact Set.pair_eq_pair_iff.1 h
  rcases h2 with ⟨rfl, rfl⟩ | ⟨rfl, rfl⟩
  · rfl
  · exact edgeKey_comm a b

/-- The canonical key of an edge. -/
def keyOf (e : GraphEdge) : String := edgeKey e.source e.target

/-- Invariant threaded through the graph fold: recorded edges have pairwise
distinct keys, all of which appear in the seen-set. -/
def EdgeInv (edges : List GraphEdge) (seen : List String) : Prop :=
  (edges.map keyOf).Nodup ∧ ∀ e ∈ edges, keyOf e ∈ seen

theorem addLinkEdges_inv (nid : String) (links : List NoteLink)
    (edges : List GraphEdge) (seen : List String) (hinv : EdgeInv edges seen) :
    EdgeInv (addLinkEdges nid links edges seen).1 (addLinkEdges nid links edges seen).2 ∧
    (∀ e ∈ (addLinkEdges nid links edges seen).1,
      e ∈ edges ∨ ∃ link ∈ links,
        e = { source := nid, target := link.noteId, type := link.linkType }) := by
  induction links generalizing edges seen with
  | nil => exact ⟨hinv, fun e he => Or.inl he⟩
  | cons link rest ih =>
    by_cases hseen : seen.contains (edgeKey nid link.noteId) = true
    · rw [show addLinkEdges nid (link :: rest) edges seen =
          addLinkEdges nid rest edges seen by
        simp only [addLinkEdges, hseen, if_true]]
      rcases ih edges seen hinv with ⟨h1, h2⟩
      refine ⟨h1, fun e he => ?_⟩
      rcases h2 e he with he2 | ⟨l, hl, he3⟩
      · exact Or.inl he2
      · exact Or.inr ⟨l, List.mem_cons_of_mem _ hl, he3⟩
    · have hseen' : (seen.contains (edgeKey nid link.noteId)) = false := by
        simpa using hseen
      rw [show addLinkEdges nid (link :: rest) edges seen =
          addLinkEdges nid rest
            (edges ++ [{ source := nid, target := link.noteId, type := link.linkType }])
            (edgeKey nid link.noteId :: seen) by
        simp only [addLinkEdges, hseen', Bool.false_eq_true, if_false]]
      have hnotmem : edgeKey nid link.noteId ∉ seen := by
        intro hmem
        rw [show (seen.contains (edgeKey nid link.noteId)) = true by
          simpa using hmem] at hseen'
        exact absurd hseen' (by simp)
      have hinv2 : EdgeInv
          (edges ++ [{ source := nid, target := link.noteId, type := link.linkType }])
          (edgeKey nid link.noteId :: seen) := by
        constructor
        · rw [List.map_append, List.nodup_append]
          refine ⟨hinv.1, by simp, ?_⟩
          intro k hk hk2
          rcases List.mem_map.1 hk with ⟨e, he, rfl⟩
          have hkey : keyOf e = edgeKey nid link.noteId := by simpa using hk2
          have hke := hinv.2 e he
          rw [hkey] at hke
          exact hnotmem hke
        · intro e he
          rcases List.mem_append.1 he with he2 | he2
          · exact List.mem_cons_of_mem _ (hinv.2 e he2)
          · rw [List.mem_singleton.1 he2]
            exact List.mem_cons_self _ _
      rcases ih _ _ hinv2 with ⟨h1, h2⟩
      refine ⟨h1, fun e he => ?_⟩
      rcases h2 e he with he2 | ⟨l, hl, he3⟩
      · rcases List.mem_append.1 he2 with he3 | he3
        · exact Or.inl he3
        · exact Or.inr ⟨link, List.mem_cons_self _ _, List.mem_singleton.1 he3⟩
      · exact Or.inr ⟨l, List.mem_cons_of_mem _ hl, he3⟩

theorem addNoteGraph_inv (pname : String) (notes : List Note)
    (nodes : List GraphNode) (edges : List GraphEdge) (seen : List String)
    (hinv : EdgeInv edges seen) :
    EdgeInv (addNoteGraph pname notes nodes edges seen).2.1
        (addNoteGraph pname notes nodes edges seen).2.2 ∧
    (addNoteGraph pname notes nodes edges seen).1 =
      nodes ++ notes.map (fun n =>
        ({ id := n.id, title := n.title, project := pname } : GraphNode)) ∧
    (∀ e ∈ (addNoteGraph pname notes nodes edges seen).2.1,
      e ∈ edges ∨ ∃ n ∈ notes, ∃ l ∈ n.linkedNotes,
        e = { source := n.id, target := l.noteId, type := l.linkType }) := by
  induction notes generalizing nodes edges seen with
  | nil => exact ⟨hinv, by simp [addNoteGraph], fun e he => Or.inl he⟩
  | cons note rest ih =>
    rcases addLinkEdges_inv note.id note.linkedNotes edges seen hinv with ⟨h1, h2⟩
    rw [show addNoteGraph pname (note :: rest) nodes edges seen =
        addNoteGraph pname rest
          (nodes ++ [{ id := note.id, title := note.title, project := pname }])
          (addLinkEdges note.id note.linkedNotes edges seen).1
          (addLinkEdges note.id note.linkedNotes edges seen).2 by
      simp only [addNoteGraph]]
    rcases ih _ _ _ h1 with ⟨h3, h4, h5⟩
    refine ⟨h3, ?_, ?_⟩
    · rw [h4]
      simp
    · intro e he
      rcases h5 e he with he2 | ⟨n, hn, l, hl, he3⟩
      · rcases h2 e he2 with he3 | ⟨l, hl, he4⟩
        · exact Or.inl he3
        · exact Or.inr ⟨note, List.mem_cons_self _ _, l, hl, he4⟩
      · exact Or.inr ⟨n, List.mem_cons_of_mem _ hn, l, hl, he3⟩

theorem addProjectGraph_inv (store : Store) (prs : List Project)
    (nodes : List GraphNode) (edges : List GraphEdge) (seen : List String)
    (hinv : EdgeInv edges seen) :
    EdgeInv (addProjectGraph store prs nodes edges seen).2.1
        (addProjectGraph store prs nodes edges seen).2.2 ∧
    (addProjectGraph store prs nodes edges seen).1 =
      nodes ++ (prs.map (fun pr => (listNotes store pr.name).map (fun n =>
        ({ id := n.id, title := n.title, project := pr.name } : GraphNode)))).flatten ∧
    (∀ e ∈ (addProjectGraph store prs nodes edges seen).2.1,
      e ∈ edges ∨ ∃ pr ∈ prs, ∃ n ∈ listNotes store pr.name, ∃ l ∈ n.linkedNotes,
        e = { source := n.id, target := l.noteId, type := l.linkType }) := by
  induction prs generalizing nodes edges seen with
  | nil => exact ⟨hinv, by simp [addProjectGraph], fun e he => Or.inl he⟩
  | cons pr prs ih =>
    rcases addNoteGraph_inv pr.name (listNotes store pr.name) nodes edges seen hinv with
      ⟨h1, h2, h3⟩
    rw [show addProjectGraph store (pr :: prs) nodes edges seen =
        addProjectGraph store prs
          (addNoteGraph pr.name (listNotes store pr.name) nodes edges seen).1
          (addNoteGraph pr.name (listNotes store pr.name) nodes edges seen).2.1
          (addNoteGraph pr.name (listNotes store pr.name) nodes edges seen).2.2 by
      simp only [addProjectGraph]]
    rcases ih _ _ _ h1 with ⟨h4, h5, h6⟩
    refine ⟨h4, ?_, ?_⟩
    · rw [h5, h2]
      simp
    · intro e he
      rcases h6 e he with he2 | ⟨pr2, hpr2, n, hn, l, hl, he3⟩
      · rcases h3 e he2 with he3 | ⟨n, hn, l, hl, he4⟩
        · exact Or.inl he3
        · exact Or.inr ⟨pr, List.mem_cons_self _ _, n, hn, l, hl, he4⟩
      · exact Or.inr ⟨pr2, List.mem_cons_of_mem _ hpr2, n, hn, l, hl, he3⟩

theorem graph_nodes_length (store : Store) (prs : List Project) :
    ((prs.map (fun pr => (listNotes store pr.name).map (fun n =>
      ({ id := n.id, title := n.title, project := pr.name } : GraphNode)))).flatten).length =
    ((prs.map (fun pr => listNotes store pr.name)).flatten).length := by
  induction prs with
  | nil => rfl
  | cons pr prs ih =>
    simp only [List.map_cons, List.flatten_cons, List.length_append, List.length_map, ih]

/-- C9 (amended): the graph never records two edges over the same unordered
endpoint pair; and when every link targets a pool note and no note links to
itself, the edge count is bounded by (number of nodes) choose 2 — distinct
edges carry distinct unordered pairs of pool ids, of which there are at
most (number of distinct ids) choose 2 ≤ (number of notes) choose 2. -/
theorem getNoteGraph_dedup_bound (store : Store) (filt : Option String) :
    ((getNoteGraph store filt).2.Pairwise (fun e1 e2 => edgePair e1 ≠ edgePair e2)) ∧
    ((∀ n ∈ graphPool store filt, ∀ l ∈ n.linkedNotes,
        l.noteId ∈ (graphPool store filt).map (fun n => n.id)) →
      (∀ n ∈ graphPool store filt, ∀ l ∈ n.linkedNotes, l.noteId ≠ n.id) →
      (getNoteGraph store filt).2.length ≤
        Nat.choose (getNoteGraph store filt).1.length 2) := by
  have base : EdgeInv [] [] := ⟨by simp, by simp⟩
  rcases addProjectGraph_inv store (graphProjects store filt) [] [] [] base with
    ⟨hinv, hnodes, hprov⟩
  have hpairwise : (getNoteGraph store filt).2.Pairwise
      (fun e1 e2 => edgePair e1 ≠ edgePair e2) := by
    have hkeys : ((getNoteGraph store filt).2.map keyOf).Nodup := hinv.1
    have hpw : (getNoteGraph store filt).2.Pairwise
        (fun e1 e2 => keyOf e1 ≠ keyOf e2) := List.pairwise_map.mp hkeys
    exact hpw.imp (fun hne hpair => hne (pair_eq_key_eq hpair))
  refine ⟨hpairwise, ?_⟩
  intro H2 H3
  have hprov2 : ∀ e ∈ (getNoteGraph store filt).2,
      ∃ n ∈ graphPool store filt, ∃ l ∈ n.linkedNotes,
        e = { source := n.id, target := l.noteId, type := l.linkType } := by
    intro e he
    rcases hprov e he with he2 | ⟨pr, hpr, n, hn, l, hl, he3⟩
    · simp at he2
    · refine ⟨n, ?_, l, hl, he3⟩
      rw [graphPool]
      rw [List.mem_flatten]
      exact ⟨listNotes store pr.name, List.mem_map.2 ⟨pr, hpr, rfl⟩, hn⟩
  have hmem : ∀ x ∈ (getNoteGraph store filt).2.map edgePair,
      x ∈ ((graphPool store filt).map (fun n => n.id)).toFinset.powersetCard 2 := by
    intro x hx
    rcases List.mem_map.1 hx with ⟨e, he, rfl⟩
    rcases hprov2 e he with ⟨n, hn, l, hl, rfl⟩
    rw [Finset.mem_powersetCard]
    constructor
    · intro y hy
      rw [List.mem_toFinset]
      have hy2 : y = n.id ∨ y = l.noteId := by
        simpa [edgePair] using hy
      rcases hy2 with rfl | rfl
      · exact List.mem_map.2 ⟨n, hn, rfl⟩
      · exact H2 n hn l hl
    · exact Finset.card_pair (Ne.symm (H3 n hn l hl))
  have hnd : ((getNoteGraph store filt).2.map edgePair).Nodup :=
    List.pairwise_map.mpr hpairwise
  have hsub : ((getNoteGraph store filt).2.map edgePair).toFinset ⊆
      ((graphPool store filt).map (fun n => n.id)).toFinset.powersetCard 2 := by
    intro x hx
    exact hmem x (List.mem_toFinset.1 hx)
  have hcard := Finset.card_le_card hsub
  rw [List.toFinset_card_of_nodup hnd, Finset.card_powersetCard] at hcard
  have hle : ((graphPool store filt).map (fun n => n.id)).toFinset.card ≤
      (graphPool store filt).length := by
    refine le_trans (List.toFinset_card_le _) ?_
    rw [List.length_map]
  have hcard2 := le_trans hcard (Nat.choose_le_choose 2 hle)
  have hlen : (getNoteGraph store filt).2.length =
      ((getNoteGraph store filt).2.map edgePair).length := (List.length_map _ _).symm
  have hnlen : (getNoteGraph store filt).1.length = (graphPool store filt).length := by
    rw [show (getNoteGraph store filt).1 =
        (addProjectGraph store (graphProjects store filt) [] [] []).1 from rfl, hnodes]
    rw [List.nil_append, graph_nodes_length, graphPool]
  rw [hnlen]
  simpa using hcard2

/-- A store whose only note links to a nonexistent note id. -/
def danglingStore : Store :=
  [⟨"p", [{ id := "a", title := "A", date := 0, project := "p", content := "",
            actionPoints := [], tags := [],
            linkedNotes := [{ noteId := "zz", noteTitle := "Z", project := "p",
                              linkType := LinkType.manual }],
            createdAt := "", updatedAt := "" }]⟩]

/-- C9 counterexample: with a link whose target is not in the pool, the
graph has 1 node and 1 edge, exceeding (1 choose 2) = 0. -/
theorem getNoteGraph_bound_counterexample :
    ¬ ((getNoteGraph danglingStore none).2.length ≤
        Nat.choose (getNoteGraph danglingStore none).1.length 2) := by decide

/-- Witness for the amended C9 theorem on a store of two mutually linked
notes (two link entries collapse to one edge; 1 ≤ (2 choose 2)). -/
theorem getNoteGraph_dedup_bound_witness :
    (getNoteGraph linkedPairStore none).2.length ≤
      Nat.choose (getNoteGraph linkedPairStore none).1.length 2 :=
  (getNoteGraph_dedup_bound linkedPairStore none).2 (by decide) (by decide)


/-! ## Claim C1: idempotence of the Auto-Linker

The second invocation recomputes the same Finder output because similarity
scoring depends on no field that `updateNote` (with a `linkedNotes`-only
record) changes.  `SameExceptLinks` captures agreement on every field other
than `linkedNotes` and `updatedAt`. -/

/-- Two notes agreeing on every field except `linkedNotes` and `updatedAt`. -/
def SameExceptLinks (n m : Note) : Prop :=
  n.id = m.id ∧ n.title = m.title ∧ n.date = m.date ∧ n.project = m.project ∧
  n.content = m.content ∧ n.tags = m.tags ∧ n.actionPoints = m.actionPoints ∧
  n.createdAt = m.createdAt

/-- Project entries with equal names and pointwise `SameExceptLinks` notes. -/
def ProjRel (p q : Project) : Prop :=
  p.name = q.name ∧ List.Forall₂ SameExceptLinks p.notes q.notes

/-- Stores with pointwise related project entries. -/
def StoreRel (s t : Store) : Prop := List.Forall₂ ProjRel s t

theorem sameExceptLinks_refl (n : Note) : SameExceptLinks n n :=
  ⟨rfl, rfl, rfl, rfl, rfl, rfl, rfl, rfl⟩

theorem noteKeywords_congr {a a' : Note} (h : SameExceptLinks a a') :
    noteKeywords a = noteKeywords a' := by
  rw [noteKeywords, noteKeywords, h.2.2.2.2.1, h.2.1]

theorem assigneesOf_congr {a a' : Note} (h : SameExceptLinks a a') :
    assigneesOf a = assigneesOf a' := by
  rw [assigneesOf, assigneesOf, h.2.2.2.2.2.2.1]

theorem calculateSimilarity_congr {a a' b b' : Note}
    (ha : SameExceptLinks a a') (hb : SameExceptLinks b b') :
    calculateSimilarity a b = calculateSimilarity a' b' := by
  have hkwa := noteKeywords_congr ha
  have hkwb := noteKeywords_congr hb
  have hasa := assigneesOf_congr ha
  have hasb := assigneesOf_congr hb
  rw [calculateSimilarity, calculateSimilarity, ha.1, hb.1]
  rw [tagScore, tagScore, ha.2.2.2.2.2.1, hb.2.2.2.2.2.1]
  rw [keywordScore, keywordScore, keywordOverlap, keywordOverlap,
    totalKeywords, totalKeywords, hkwa, hkwb]
  rw [projectScore, projectScore, ha.2.2.2.1, hb.2.2.2.1]
  rw [dateScore, dateScore, daysDiff, daysDiff, ha.2.2.1, hb.2.2.1]
  rw [assigneeScore, assigneeScore, hasa, hasb]

theorem getProject_rel {s t : Store} (h : StoreRel s t) (name : String) :
    (getProject s name = none ∧ getProject t name = none) ∨
    (∃ p q, getProject s name = some p ∧ getProject t name = some q ∧ ProjRel p q) := by
  induction h with
  | nil => exact Or.inl ⟨rfl, rfl⟩
  | @cons p q ps qs hpq hrest ih =>
    cases hn : (p.name == name) with
    | true =>
      refine Or.inr ⟨p, q, ?_, ?_, hpq⟩
      · rw [getProject, List.find?_cons, hn]
      · rw [getProject, List.find?_cons, show (q.name == name) = true by
          rw [← hpq.1]; exact hn]
    | false =>
      have hn2 : (q.name == name) = false := by rw [← hpq.1]; exact hn
      rcases ih with ⟨h1, h2⟩ | ⟨p2, q2, h1, h2, h3⟩
      · refine Or.inl ⟨?_, ?_⟩
        · rw [getProject, List.find?_cons, hn]; exact h1
        · rw [getProject, List.find?_cons, hn2]; exact h2
      · refine Or.inr ⟨p2, q2, ?_, ?_, h3⟩
        · rw [getProject, List.find?_cons, hn]; exact h1
        · rw [getProject, List.find?_cons, hn2]; exact h2

theorem find?_note_rel {ns ms : List Note} (h : List.Forall₂ SameExceptLinks ns ms)
    (id : String) :
    (ns.find? (fun n => n.id == id) = none ∧ ms.find? (fun n => n.id == id) = none) ∨
    (∃ n m, ns.find? (fun n => n.id == id) = some n ∧
      ms.find? (fun n => n.id == id) = some m ∧ SameExceptLinks n m) := by
  induction h with
  | nil => exact Or.inl ⟨rfl, rfl⟩
  | @cons n m ns2 ms2 hnm hrest ih =>
    cases hn : (n.id == id) with
    | true =>
      refine Or.inr ⟨n, m, ?_, ?_, hnm⟩
      · rw [List.find?_cons, hn]
      · rw [List.find?_cons, show (m.id == id) = true by rw [← hnm.1]; exact hn]
    | false =>
      have hn2 : (m.id == id) = false := by rw [← hnm.1]; exact hn
      rcases ih with ⟨h1, h2⟩ | ⟨n2, m2, h1, h2, h3⟩
      · exact Or.inl ⟨by rw [List.find?_cons, hn]; exact h1,
          by rw [List.find?_cons, hn2]; exact h2⟩
      · exact Or.inr ⟨n2, m2, by rw [List.find?_cons, hn]; exact h1,
          by rw [List.find?_cons, hn2]; exact h2, h3⟩

theorem getNote_rel {s t : Store} (h : StoreRel s t) (p id : String) :
    (getNote s p id = none ∧ getNote t p id = none) ∨
    (∃ n m, getNote s p id = some n ∧ getNote t p id = some m ∧
      SameExceptLinks n m) := by
  rcases getProject_rel h p with ⟨h1, h2⟩ | ⟨pr, qr, h1, h2, h3⟩
  · exact Or.inl ⟨by rw [getNote, h1], by rw [getNote, h2]⟩
  · rcases find?_note_rel h3.2 id with ⟨g1, g2⟩ | ⟨n, m, g1, g2, g3⟩
    · exact Or.inl ⟨by rw [getNote, h1]; exact g1, by rw [getNote, h2]; exact g2⟩
    · exact Or.inr ⟨n, m, by rw [getNote, h1]; exact g1,
        by rw [getNote, h2]; exact g2, g3⟩

theorem insertDesc_forall₂ {R : α → α → Prop} {key : α → Int}
    (hkey : ∀ a b, R a b → key a = key b) {x y : α} (hxy : R x y)
    {l l' : List α} (h : List.Forall₂ R l l') :
    List.Forall₂ R (insertDesc key x l) (insertDesc key y l') := by
  induction h with
  | nil => exact List.Forall₂.cons hxy List.Forall₂.nil
  | @cons a b as bs hab hrest ih =>
    rw [insertDesc, insertDesc]
    have hk1 : key x = key y := hkey _ _ hxy
    have hk2 : key a = key b := hkey _ _ hab
    by_cases hc : key x < key a
    · rw [if_pos hc, if_pos (by omega)]
      exact List.Forall₂.cons hab ih
    · rw [if_neg hc, if_neg (by omega)]
      exact List.Forall₂.cons hxy (List.Forall₂.cons hab hrest)

theorem sortByDesc_forall₂ {R : α → α → Prop} {key : α → Int}
    (hkey : ∀ a b, R a b → key a = key b)
    {l l' : List α} (h : List.Forall₂ R l l') :
    List.Forall₂ R (sortByDesc key l) (sortByDesc key l') := by
  induction h with
  | nil => exact List.Forall₂.nil
  | @cons a b as bs hab hrest ih =>
    rw [sortByDesc, sortByDesc]
    exact insertDesc_forall₂ hkey hab ih

theorem listNotes_rel {s t : Store} (h : StoreRel s t) (name : String) :
    List.Forall₂ SameExceptLinks (listNotes s name) (listNotes t name) := by
  rcases getProject_rel h name with ⟨h1, h2⟩ | ⟨pr, qr, h1, h2, h3⟩
  · rw [listNotes, h1, listNotes, h2]
    exact List.Forall₂.nil
  · rw [listNotes, h1, listNotes, h2]
    exact sortByDesc_forall₂ (fun a b hab => by rw [hab.2.2.1]) h3.2

theorem allNotesOf_rel {s t : Store} (h : StoreRel s t) :
    List.Forall₂ SameExceptLinks (allNotesOf s) (allNotesOf t) := by
  rw [allNotesOf, allNotesOf]
  have aux : ∀ {prs prt : List Project}, List.Forall₂ ProjRel prs prt →
      List.Forall₂ SameExceptLinks
        ((prs.map (fun pr => listNotes s pr.name)).flatten)
        ((prt.map (fun pr => listNotes t pr.name)).flatten) := by
    intro prs prt hf
    induction hf with
    | nil => exact List.Forall₂.nil
    | @cons p q ps qs hpq hrest ih =>
      simp only [List.map_cons, List.flatten_cons]
      refine List.rel_append ?_ ih
      rw [hpq.1]
      exact listNotes_rel h q.name
  exact aux h

/-- The pair relation carried through scoring: related notes and equal
scores. -/
def ScoredRel (x y : Note × Int) : Prop :=
  SameExceptLinks x.1 y.1 ∧ x.2 = y.2

theorem scoredCandidates_rel {s t : Store} (h : StoreRel s t)
    {src src' : Note} (hsrc : SameExceptLinks src src') (minScore : Int) :
    List.Forall₂ ScoredRel (scoredCandidates s src minScore)
      (scoredCandidates t src' minScore) := by
  rw [scoredCandidates, scoredCandidates]
  refine List.rel_filter ?_ (List.rel_map ?_ (allNotesOf_rel h))
  · intro x y hxy
    simp only [hxy.2]
  · intro a b hab
    exact ⟨hab, calculateSimilarity_congr hsrc hab⟩

theorem forall₂_map_eq {R : α → α → Prop} {f : α → β}
    (hf : ∀ a b, R a b → f a = f b) {l l' : List α}
    (h : List.Forall₂ R l l') : l.map f = l'.map f := by
  induction h with
  | nil => rfl
  | @cons a b as bs hab hrest ih =>
    simp only [List.map_cons, hf a b hab, ih]

/-- Finder invariance: stores related by `StoreRel` produce identical
Finder output. -/
theorem findRelatedNotes_rel {s t : Store} (h : StoreRel s t)
    (p id : String) (limit : Nat) (minScore : Int) :
    findRelatedNotes s p id limit minScore =
      findRelatedNotes t p id limit minScore := by
  rcases getNote_rel h p id with ⟨h1, h2⟩ | ⟨n, m, h1, h2, h3⟩
  · rw [findRelatedNotes, h1, findRelatedNotes, h2]
  · rw [findRelatedNotes, h1, findRelatedNotes, h2]
    refine forall₂_map_eq ?_ (List.forall₂_take limit
      (sortByDesc_forall₂ (fun a b hab => hab.2) (scoredCandidates_rel h h3 minScore)))
    intro a b hab
    rw [toRelatedLink, toRelatedLink, hab.1.1, hab.1.2.1, hab.1.2.2.2.1, hab.2]

theorem updateNotesList_forall₂ (id : String) (L : List NoteLink) (now : String)
    (ns : List Note) :
    List.Forall₂ SameExceptLinks ns
      (updateNotesList id { linkedNotes := some L } now ns).1 := by
  induction ns with
  | nil => exact List.Forall₂.nil
  | cons n ns ih =>
    rw [updateNotesList]
    by_cases hn : (n.id == id) = true
    · rw [if_pos hn]
      refine List.Forall₂.cons ⟨rfl, rfl, rfl, rfl, rfl, rfl, rfl, rfl⟩ ?_
      exact List.forall₂_same.2 (fun x _ => sameExceptLinks_refl x)
    · rw [if_neg hn]
      exact List.Forall₂.cons (sameExceptLinks_refl n) ih

theorem updateNote_storeRel {store store2 : Store} {p id : String}
    {L : List NoteLink} {now : String} {res : Option Note}
    (hupd : updateNote store p id { linkedNotes := some L } now =
      some (store2, res)) :
    StoreRel store store2 := by
  induction store generalizing store2 with
  | nil => simp [updateNote] at hupd
  | cons pr prs ih =>
    by_cases hpr : (pr.name == p) = true
    · rw [updateNote, if_pos hpr] at hupd
      have hstore2 : store2 =
          ⟨pr.name, (updateNotesList id { linkedNotes := some L } now pr.notes).1⟩ :: prs := by
        injection hupd with h1
        exact (congrArg Prod.fst h1).symm
      subst hstore2
      refine List.Forall₂.cons ⟨rfl, updateNotesList_forall₂ id L now pr.notes⟩ ?_
      exact List.forall₂_same.2 (fun x _ => ⟨rfl, List.forall₂_same.2
        (fun y _ => sameExceptLinks_refl y)⟩)
    · rw [updateNote, if_neg hpr] at hupd
      cases hrec : updateNote prs p id { linkedNotes := some L } now with
      | none => rw [hrec] at hupd; exact absurd hupd (by simp)
      | some r2 =>
        rw [hrec] at hupd
        have hstore2 : store2 = pr :: r2.1 := by
          injection hupd with h1
          have := congrArg Prod.fst h1
          simpa using this.symm
        subst hstore2
        refine List.Forall₂.cons ⟨rfl, List.forall₂_same.2
          (fun y _ => sameExceptLinks_refl y)⟩ ?_
        have hres : r2.2 = res := by
          injection hupd with h1
          exact congrArg Prod.snd h1
        exact ih (show updateNote prs p id
          { linkedNotes := some L } now = some (r2.1, res) by rw [hrec, ← hres])

theorem addNewLinks_append (related : List NoteLink) :
    ∀ links : List NoteLink,
      (addNewLinks links related).1 = links ++ (addNewLinks links related).2 := by
  induction related with
  | nil => intro links; simp [addNewLinks]
  | cons rel rest ih =>
    intro links
    rw [addNewLinks]
    by_cases h : (links.any (fun l => l.noteId == rel.noteId)) = true
    · rw [if_pos h]
      exact ih links
    · rw [if_neg h]
      simp only
      rw [ih (links ++ [rel]), List.append_assoc]
      rfl

theorem addNewLinks_covers (related : List NoteLink) :
    ∀ links : List NoteLink, ∀ rel ∈ related,
      rel.noteId ∈ (addNewLinks links related).1.map (fun l => l.noteId) := by
  induction related with
  | nil => intro links rel h; simp at h
  | cons rel0 rest ih =>
    intro links rel hmem
    rw [addNewLinks]
    by_cases h : (links.any (fun l => l.noteId == rel0.noteId)) = true
    · rw [if_pos h]
      rcases List.mem_cons.1 hmem with rfl | hmem2
      · rcases List.any_eq_true.1 h with ⟨l, hl, hbeq⟩
        have : l.noteId = rel.noteId := by simpa using hbeq
        rw [addNewLinks_append rest links]
        exact List.mem_map.2 ⟨l, List.mem_append_left _ hl, this⟩
      · exact ih links rel hmem2
    · rw [if_neg h]
      simp only
      rcases List.mem_cons.1 hmem with rfl | hmem2
      · rw [addNewLinks_append rest (links ++ [rel])]
        exact List.mem_map.2 ⟨rel, List.mem_append_left _
          (List.mem_append_right _ (List.mem_singleton.2 rfl)), rfl⟩
      · exact ih (links ++ [rel0]) rel hmem2

theorem addNewLinks_idle (related : List NoteLink) (links : List NoteLink)
    (h : ∀ rel ∈ related, rel.noteId ∈ links.map (fun l => l.noteId)) :
    addNewLinks links related = (links, []) := by
  induction related with
  | nil => rfl
  | cons rel rest ih =>
    rw [addNewLinks]
    have hany : (links.any (fun l => l.noteId == rel.noteId)) = true := by
      rcases List.mem_map.1 (h rel (List.mem_cons_self _ _)) with ⟨l, hl, heq⟩
      exact List.any_eq_true.2 ⟨l, hl, by simpa using heq⟩
    rw [if_pos hany]
    exact ih (fun r hr => h r (List.mem_cons_of_mem _ hr))

/-- C1: `autoLinkRelatedNotes` is idempotent.  If a first call returns
`(l1, S1)`, an identical second call against `S1` returns the empty sequence
and persists nothing (the store is returned unchanged); moreover every link
the second Finder pass produces has a target id already present in the
source note's `linkedNotes`. -/
theorem autoLinkRelatedNotes_idempotent (store : Store) (p id : String)
    (limit : Nat) (minScore : Int) (now now2 : String)
    (l1 : List NoteLink) (S1 : Store)
    (h : autoLinkRelatedNotes store p id limit minScore now = some (l1, S1)) :
    autoLinkRelatedNotes S1 p id limit minScore now2 = some ([], S1) ∧
    (∀ rel ∈ findRelatedNotes S1 p id limit minScore, ∀ n,
      getNote S1 p id = some n →
      rel.noteId ∈ n.linkedNotes.map (fun l => l.noteId)) := by
  by_cases hrel : ((findRelatedNotes store p id limit minScore).isEmpty) = true
  · rw [show autoLinkRelatedNotes store p id limit minScore now = some ([], store) by
      simp only [autoLinkRelatedNotes, hrel, if_true]] at h
    injection h with h1
    rw [Prod.mk.injEq] at h1
    obtain ⟨h1a, h1b⟩ := h1
    subst h1b
    rw [List.isEmpty_iff] at hrel
    constructor
    · simp only [autoLinkRelatedNotes, hrel, List.isEmpty_nil, if_true]
    · intro rel hmem
      rw [hrel] at hmem
      simp at hmem
  · cases hget : getNote store p id with
    | none =>
      exfalso
      rw [show findRelatedNotes store p id limit minScore = [] by
        rw [findRelatedNotes, hget]] at hrel
      exact hrel rfl
    | some note =>
      by_cases hnew : (((addNewLinks note.linkedNotes
          (findRelatedNotes store p id limit minScore)).2).isEmpty) = true
      · rw [show autoLinkRelatedNotes store p id limit minScore now =
            some ((addNewLinks note.linkedNotes
              (findRelatedNotes store p id limit minScore)).2, store) by
          simp only [autoLinkRelatedNotes, hrel, Bool.false_eq_true, if_false,
            hget, hnew, if_true]] at h
        injection h with h1
        rw [Prod.mk.injEq] at h1
        obtain ⟨h1a, h1b⟩ := h1
        subst h1b
        rw [List.isEmpty_iff] at hnew
        have hr1 : (addNewLinks note.linkedNotes
            (findRelatedNotes store p id limit minScore)).1 = note.linkedNotes := by
          rw [addNewLinks_append, hnew, List.append_nil]
        have hcov := addNewLinks_covers (findRelatedNotes store p id limit minScore)
          note.linkedNotes
        rw [hr1] at hcov
        constructor
        · simp only [autoLinkRelatedNotes, hrel, Bool.false_eq_true, if_false,
            hget, hnew, List.isEmpty_nil, if_true]
        · intro rel hmem n hn
          rw [hget] at hn
          have : n = note := (Option.some_inj.1 hn).symm
          subst this
          exact hcov rel hmem
      · rcases updateNote_spec ({ linkedNotes := some (addNewLinks note.linkedNotes (findRelatedNotes store p id limit minScore)).1 }) now hget with ⟨S2, hu, hg⟩
        rw [show autoLinkRelatedNotes store p id limit minScore now =
            some ((addNewLinks note.linkedNotes
              (findRelatedNotes store p id limit minScore)).2, S2) by
          simp only [autoLinkRelatedNotes, hrel, Bool.false_eq_true, if_false,
            hget, hnew, hu]] at h
        injection h with h1
        rw [Prod.mk.injEq] at h1
        obtain ⟨h1a, h1b⟩ := h1
        subst h1b
        have hrelS : StoreRel store S2 := updateNote_storeRel hu
        have hfind : findRelatedNotes S2 p id limit minScore =
            findRelatedNotes store p id limit minScore :=
          (findRelatedNotes_rel hrelS p id limit minScore).symm
        have hcov := addNewLinks_covers (findRelatedNotes store p id limit minScore)
          note.linkedNotes
        have hidle : addNewLinks (applyUpdates note
            { linkedNotes := some (addNewLinks note.linkedNotes (findRelatedNotes store p id limit minScore)).1 } now).linkedNotes
            (findRelatedNotes store p id limit minScore) =
            ((addNewLinks note.linkedNotes
              (findRelatedNotes store p id limit minScore)).1, []) :=
          addNewLinks_idle _ _ hcov
        constructor
        · simp only [autoLinkRelatedNotes, hfind, hrel, Bool.false_eq_true, if_false,
            hg, hidle, List.isEmpty_nil, if_true]
        · intro rel hmem n hn
          rw [hfind] at hmem
          rw [hg] at hn
          have hn2 : n = applyUpdates note
              { linkedNotes := some (addNewLinks note.linkedNotes (findRelatedNotes store p id limit minScore)).1 } now :=
            (Option.some_inj.1 hn).symm
          subst hn2
          exact hcov rel hmem

/-- The store after auto-linking `pairNoteA`: it gains one `related` link to
`pairNoteB` with score 90; no backlink is created. -/
def autoLinkedPairStore : Store :=
  [⟨"p", [{ pairNoteA with
              linkedNotes := [{ noteId := "b", noteTitle := "B", project := "p",
                                linkType := LinkType.related,
                                relevanceScore := some 90 }]
              updatedAt := "t" },
          pairNoteB]⟩]

/-- Witness for C1: the concrete second call returns the empty sequence and
the unchanged store. -/
theorem autoLinkRelatedNotes_idempotent_witness :
    autoLinkRelatedNotes autoLinkedPairStore "p" "a" 3 20 "t2" =
      some ([], autoLinkedPairStore) ∧
    (∀ rel ∈ findRelatedNotes autoLinkedPairStore "p" "a" 3 20, ∀ n,
      getNote autoLinkedPairStore "p" "a" = some n →
      rel.noteId ∈ n.linkedNotes.map (fun l => l.noteId)) :=
  autoLinkRelatedNotes_idempotent pairStore "p" "a" 3 20 "t" "t2"
    [{ noteId := "b", noteTitle := "B", project := "p",
       linkType := LinkType.related, relevanceScore := some 90 }]
    autoLinkedPairStore (by decide)

end Highlight
